import Mathlib

/-!
Verification of the `bones` Wang-tile machine: a shallow embedding of the
tile data model (`src/tiling.rs`), the row evolver (`src/constraint.rs`),
the program runtime (`src/mosaic.rs`) and the bit I/O buffer
(`src/io_buffer.rs`), together with theorems settling the spec claims.

Modelling conventions:
* `usize`/`u32` integers become `Nat` (no arithmetic in the sources can
  overflow on the inputs the claims range over).
* `HashMap` becomes an association list with overwrite-on-insert
  (`assocInsert`); `HashSet` becomes a `List` whose order stands for the
  unspecified hash iteration order.
* Rust panics (the `panic!` branch of `get_side_effects`, reachable only
  through duplicate-tile piles) are modelled as an explicit `Panicked`
  error constructor so every function stays total.
* The process's stdin/stdout byte streams are modelled as `List Nat`
  fields of `IoState`.
-/

namespace Bones

/-- `type Pip = usize` — an unsigned integer edge colour. -/
abbrev Pip := Nat

/-- `pip_from_components(position, value) = (position << 1) | ((value & 1) << 0)`. -/
def pip_from_components (position : Nat) (value : Nat) : Pip :=
  (position <<< 1) ||| ((value &&& 1) <<< 0)

def EMPTY_PIP : Pip := 0

def ZERO_PIP : Pip := 0

def ONE_PIP : Pip := 1

/-- `UNALLOCATED_PIP = (u32::MAX >> 1) as Pip`. -/
def UNALLOCATED_PIP : Pip := 2147483647

inductive Direction where
  | North
  | East
  | South
  | West
deriving DecidableEq, Repr

/-- `type Orientation = Direction`. -/
abbrev Orientation := Direction

/-- `impl Neg for Direction` — negation swaps opposing members. -/
def Direction.negate : Direction → Direction
  | .North => .South
  | .South => .North
  | .East => .West
  | .West => .East

instance : Neg Direction := ⟨Direction.negate⟩

/-- `struct Tile` — an immutable 4-tuple of pips. -/
structure Tile where
  north : Pip
  east : Pip
  south : Pip
  west : Pip
deriving DecidableEq, Repr

def Tile.new (north east south west : Pip) : Tile :=
  ⟨north, east, south, west⟩

/-- `Tile::cardinal(direction) -> Pip`. -/
def Tile.cardinal (t : Tile) (direction : Direction) : Pip :=
  match direction with
  | .North => t.north
  | .East => t.east
  | .South => t.south
  | .West => t.west

inductive PurityBias where
  | Nothing
  | Hidden
deriving DecidableEq, Repr

/-- `enum SideEffects<T> { Pure(PurityBias), In([T; 2]), Out(bool) }`.
`InputAlts<T> = [T; 2]` is modelled as a pair. -/
inductive SideEffects (T : Type) where
  | Pure (bias : PurityBias)
  | In (alts : T × T)
  | Out (bit : Bool)
deriving DecidableEq, Repr

/-- Numeric encoding of the source's `Ord` impl on `SideEffects`:
`Out < In < Pure` (`cmp` compares only the constructors). -/
def SideEffects.rank : SideEffects T → Nat
  | .Out _ => 0
  | .In _ => 1
  | .Pure _ => 2

/-- `SideEffects::is_input`. -/
def SideEffects.isInput : SideEffects T → Bool
  | .In _ => true
  | _ => false

/-- `SideEffects::is_output`. -/
def SideEffects.isOutput : SideEffects T → Bool
  | .Out _ => true
  | _ => false

/-- `struct Domino { side_effect: SideEffects<Tile>, tile: Tile }`. -/
structure Domino where
  side_effect : SideEffects Tile
  tile : Tile
deriving DecidableEq, Repr

/-- `Domino::pure`. -/
def Domino.pureTile (tile : Tile) : Domino :=
  ⟨.Pure .Nothing, tile⟩

/-- `Domino::input`. -/
def Domino.input (tile : Tile) (alts : Tile × Tile) : Domino :=
  ⟨.In alts, tile⟩

/-- `Domino::output`. -/
def Domino.output (tile : Tile) (bit : Bool) : Domino :=
  ⟨.Out bit, tile⟩

/-- `type TileRef = u32` — an index into the pile's buffer. -/
abbrev TileRef := Nat

/-! ### Bit I/O buffer (`src/io_buffer.rs`) -/

/-- `struct BitBuffer { buffer: [u8; 1], offset: u8 }`. -/
structure BitBuffer where
  buffer : Nat
  offset : Nat
deriving DecidableEq, Repr

/-- `BitBuffer::new`. -/
def BitBuffer.new : BitBuffer := ⟨0, 0⟩

/-- `struct IoBuffer<I, O>`: the two shift registers plus the underlying
byte streams.  `input` holds the bytes still unread on stdin; `output`
holds the bytes already written (and flushed) to stdout. -/
structure IoState where
  input_buf : BitBuffer
  output_buf : BitBuffer
  input : List Nat
  output : List Nat
deriving DecidableEq, Repr

/-- `IoBuffer::with_io` / `IoBuffer::new`, with `stdin` the byte stream
the process would read. -/
def IoState.new (stdin : List Nat) : IoState :=
  ⟨BitBuffer.new, BitBuffer.new, stdin, []⟩

/-- `enum RowError`: `Cloud` wraps the `TileCloudError` (`NoTilesLeft`);
the `UnsatisfiableConstraints` context string is not modelled.
`Panicked` models a Rust panic escaping from `get_side_effects`. -/
inductive RowErr where
  | Cloud
  | UnsatisfiableConstraints
  | Panicked
deriving DecidableEq, Repr

/-- `enum MosaicError` (minus payloads that are only display context).
`Panicked` models a Rust panic escaping from `get_side_effects`. -/
inductive MosaicErr where
  | Io
  | RowE (e : RowErr)
  | InvalidTile (tile : Tile)
  | InvalidTileBorder (tile : Tile)
  | TooManyTiles
  | InvalidInputAlts (d : Domino)
  | InvalidInitialTile (tile : Tile)
  | EmptyInitialState
  | Panicked
deriving DecidableEq, Repr

end Bones

namespace Bones

/-- `IoBuffer::get`: refill the input register at offset 0 by reading one
byte (an empty stream is the `read_exact` error), return the bit at the
current offset (LSB-first), advance, reset at 8.  The paired `IoState` is
the state after the call (unchanged on error). -/
def ioGet (io : IoState) : Except Unit Bool × IoState :=
  let refilled : Except Unit IoState :=
    if io.input_buf.offset = 0 then
      match io.input with
      | [] => Except.error ()
      | b :: rest => Except.ok { io with input_buf := ⟨b, 0⟩, input := rest }
    else Except.ok io
  match refilled with
  | Except.error _ => (Except.error (), io)
  | Except.ok io2 =>
    let byte := io2.input_buf.buffer
    let bit := byte &&& (1 <<< io2.input_buf.offset)
    let off := io2.input_buf.offset + 1
    let nb := if off = 8 then BitBuffer.new else BitBuffer.mk byte off
    (Except.ok (bit != 0), { io2 with input_buf := nb })

/-- `IoBuffer::put`: OR the bit into the output register at the current
offset; at offset 8 write the byte, flush, and reset. -/
def ioPut (io : IoState) (bit : Bool) : IoState :=
  let byte := io.output_buf.buffer
  let b : Nat := if bit then 1 else 0
  let byte := byte ||| (b <<< io.output_buf.offset)
  let off := io.output_buf.offset + 1
  if off = 8 then
    { io with output_buf := BitBuffer.new, output := io.output ++ [byte] }
  else
    { io with output_buf := ⟨byte, off⟩ }

/-! ### DominoPile (`src/tiling.rs`) -/

/-- `HashMap::insert` on the association-list model: overwrite any
previous binding of the key. -/
def assocInsert [DecidableEq α] (m : List (α × β)) (k : α) (v : β) : List (α × β) :=
  m.filter (fun p => p.1 ≠ k) ++ [(k, v)]

/-- `HashMap` lookup on the association-list model (first matching key;
`assocInsert` keeps keys unique). -/
def assocGet [DecidableEq α] (m : List (α × β)) (k : α) : Option β :=
  match m with
  | [] => none
  | p :: rest => if p.1 = k then some p.2 else assocGet rest k

/-- The comparator `x.side_effect.cmp(&y.side_effect)` as a `≤` relation. -/
def seLe (x y : Domino) : Prop :=
  x.side_effect.rank ≤ y.side_effect.rank

instance : DecidableRel seLe := fun x y => Nat.decLe _ _

instance : IsTotal Domino seLe := ⟨fun x y => Nat.le_total _ _⟩

instance : IsTrans Domino seLe := ⟨fun _ _ _ hxy hyz => Nat.le_trans hxy hyz⟩

/-- `struct DominoPile`: buffer laid out `[Out; In; Pure := [Valid; Hidden]]`,
the `Tile -> TileRef` index, the `In`/`Out` lookup tables, and the two
watermarks. -/
structure DominoPile where
  buffer : List Tile
  as_ref : List (Tile × TileRef)
  inputTbl : List (TileRef × (TileRef × TileRef))
  outputTbl : List (TileRef × Bool)
  impure_watermark : TileRef
  hidden_watermark : TileRef
deriving DecidableEq, Repr

/-- The watermark fold of `DominoPile::new`: count the non-`Pure`
dominoes. -/
def watermarkOf (sorted : List Domino) : TileRef :=
  sorted.foldl
    (fun i x => match x.side_effect with
      | .Pure _ => i
      | _ => i + 1) 0

/-- The alts fold of `DominoPile::new`: pull the inner tiles out of every
`In` domino, in order. -/
def altsOf (sorted : List Domino) : List Tile :=
  sorted.foldl
    (fun acc d => match d.side_effect with
      | .In a => acc ++ [a.1, a.2]
      | _ => acc) []

/-- The `Tile -> TileRef` index loop of `DominoPile::new`
(`for (i, tile) in buffer.iter().enumerate() { as_ref.insert(tile, i) }`). -/
def buildIndex (buffer : List Tile) : List (Tile × TileRef) :=
  buffer.enum.foldl (fun m p => assocInsert m p.2 p.1) []

/-- The input lookup table of `DominoPile::new`.  The `as_ref[..]` index
lookups cannot fail (every key is in the buffer) and are modelled by
`(assocGet ..).getD 0`; the `_` arm models the unreachable
`panic!("We must only operate on SideEffects::In")`. -/
def inputTblOf (sorted : List Domino) (as_ref : List (Tile × TileRef)) :
    List (TileRef × (TileRef × TileRef)) :=
  (sorted.filter (fun d => d.side_effect.isInput)).map
    (fun d => match d.side_effect with
      | .In a =>
        ((assocGet as_ref d.tile).getD 0,
          ((assocGet as_ref a.1).getD 0, (assocGet as_ref a.2).getD 0))
      | _ => (0, (0, 0)))

/-- The output lookup table of `DominoPile::new`. -/
def outputTblOf (sorted : List Domino) (as_ref : List (Tile × TileRef)) :
    List (TileRef × Bool) :=
  (sorted.filter (fun d => d.side_effect.isOutput)).map
    (fun d => match d.side_effect with
      | .Out v => ((assocGet as_ref d.tile).getD 0, v)
      | _ => (0, false))

/-- The `dominoes.sort_unstable_by(..)` call of `DominoPile::new`:
sorting by the `Out < In < Pure` comparator is modelled by insertion sort
over `seLe` (any comparator-respecting sort yields the ordering
properties proved below). -/
def sortedOf (dominoes : List Domino) : List Domino :=
  List.insertionSort seLe dominoes

/-- `DominoPile::new`. -/
def DominoPile.new (dominoes : List Domino) : DominoPile :=
  let sorted := sortedOf dominoes
  let mains : List Tile := sorted.map (fun d => d.tile)
  let buffer : List Tile := mains ++ altsOf sorted
  let as_ref := buildIndex buffer
  ⟨buffer, as_ref, inputTblOf sorted as_ref, outputTblOf sorted as_ref,
    watermarkOf sorted, mains.length⟩

/-- `DominoPile::get`. -/
def DominoPile.get (pile : DominoPile) (tile : Tile) : Option TileRef :=
  assocGet pile.as_ref tile

/-- `DominoPile::get_side_effects`; `none` models the
`panic!("This should never happen.")` branch. -/
def DominoPile.get_side_effects (pile : DominoPile) (tile_ref : TileRef) :
    Option (SideEffects TileRef) :=
  if tile_ref ≥ pile.hidden_watermark then
    some (.Pure .Hidden)
  else if tile_ref ≥ pile.impure_watermark then
    some (.Pure .Nothing)
  else
    match assocGet pile.inputTbl tile_ref with
    | some alts => some (.In alts)
    | none =>
      match assocGet pile.outputTbl tile_ref with
      | some v => some (.Out v)
      | none => none

/-- `impl Index<TileRef> for DominoPile`; out-of-bounds access (a panic in
the source, never exercised by the claims) is defaulted. -/
def DominoPile.tile (pile : DominoPile) (r : TileRef) : Tile :=
  pile.buffer.getD r (Tile.new 0 0 0 0)

/-- `DominoPile::matches_pip`: iterate the `as_ref` index, keeping the refs
of tiles whose `-direction` pip equals `pip`. -/
def DominoPile.matches_pip (pile : DominoPile) (pip : Pip) (direction : Orientation) :
    List TileRef :=
  let next := -direction
  (pile.as_ref.filter (fun p => pip = p.1.cardinal next)).map Prod.snd

/-- `DominoPile::matches_tile`. -/
def DominoPile.matches_tile (pile : DominoPile) (tile : Tile) (direction : Orientation) :
    List TileRef :=
  pile.matches_pip (tile.cardinal direction) direction

/-- `DominoPile::matches`. -/
def DominoPile.matchesRef (pile : DominoPile) (tile_ref : TileRef) (direction : Orientation) :
    List TileRef :=
  pile.matches_tile (pile.tile tile_ref) direction

/-! ### TileCloud and the row evolver (`src/constraint.rs`) -/

/-- `enum TileCloudConf`. -/
inductive TileCloudConf where
  | Prefer (r : TileRef)
  | Avoid (r : TileRef)
  | Whatever
deriving DecidableEq, Repr

/-- `struct TileCloud` (the pile borrow is passed to each method
explicitly).  The `HashSet<TileRef>` is a list whose order models the
unspecified hash iteration order; every caller supplies duplicate-free
candidates. -/
structure TileCloud where
  cloud : List TileRef
  conf : TileCloudConf
deriving DecidableEq, Repr

/-- The filter inside `TileCloud::new`: bar `Pure(Hidden)` refs; a ref on
which `get_side_effects` panics aborts (`RowErr.Panicked`). -/
def hiddenFilter (tiles : DominoPile) : List TileRef → Except RowErr (List TileRef)
  | [] => Except.ok []
  | r :: rest =>
    match tiles.get_side_effects r with
    | none => Except.error RowErr.Panicked
    | some (.Pure .Hidden) => hiddenFilter tiles rest
    | some _ => (hiddenFilter tiles rest).map (fun l => r :: l)

/-- `TileCloud::new`. -/
def TileCloud.new (tiles : DominoPile) (initial : List TileRef) (conf : TileCloudConf) :
    Except RowErr TileCloud :=
  (hiddenFilter tiles initial).map (fun c => ⟨c, conf⟩)

/-- `TileCloud::positional_pips` (a `HashSet<Pip>`; only membership is
ever used). -/
def TileCloud.positional_pips (c : TileCloud) (tiles : DominoPile) (direction : Direction) :
    List Pip :=
  c.cloud.map (fun r => (tiles.tile r).cardinal direction)

/-- `TileCloud::constrain`: retain the members whose `orientation`-edge
pip appears in `other.positional_pips(-orientation)`; an empty result is
the `NoTilesLeft` error.  (The source asserts `orientation` is East/West;
all callers obey.) -/
def TileCloud.constrain (c : TileCloud) (tiles : DominoPile) (other : TileCloud)
    (orientation : Orientation) : Except Unit TileCloud :=
  let available_pips := other.positional_pips tiles (-orientation)
  let keep := c.cloud.filter
    (fun r => available_pips.contains ((tiles.tile r).cardinal orientation))
  if keep.isEmpty then Except.error () else Except.ok ⟨keep, c.conf⟩

/-- `TileCloud::select`: scan the members; `Prefer(p)` returns `p` when
present, `Avoid(a)` the first member `≠ a`; otherwise the first member,
and `NoTilesLeft` on an empty cloud. -/
def TileCloud.select (c : TileCloud) : Except RowErr TileRef :=
  let fallback : Except RowErr TileRef :=
    match c.cloud.head? with
    | some r => Except.ok r
    | none => Except.error RowErr.Cloud
  match c.conf with
  | .Prefer p => if c.cloud.contains p then Except.ok p else fallback
  | .Avoid a =>
    match c.cloud.find? (fun r => r != a) with
    | some r => Except.ok r
    | none => fallback
  | .Whatever => fallback

/-- `struct Row` (the pile borrow is passed to each method explicitly). -/
structure Row where
  row : List TileCloud
  border : TileRef
deriving DecidableEq, Repr

/-- The interior-cell loop of `Row::new`: one cloud per current cell,
candidates `matches(cell, South)`, preference `Avoid(border)`. -/
def boardClouds (pile : DominoPile) (border : TileRef) :
    List TileRef → Except RowErr (List TileCloud)
  | [] => Except.ok []
  | r :: rest =>
    match TileCloud.new pile (pile.matchesRef r .South) (.Avoid border) with
    | Except.error e => Except.error e
    | Except.ok c =>
      match boardClouds pile border rest with
      | Except.error e => Except.error e
      | Except.ok cs => Except.ok (c :: cs)

/-- `Row::new`: the west frontier cloud (`matches(border, East)` ∩
`matches(border, South)`, `Prefer(border)`), one cloud per board cell,
and the mirrored east frontier cloud.  `HashSet::intersection` is
modelled by filtering the first list by membership in the second. -/
def Row.new (pile : DominoPile) (border : TileRef) (board : List TileRef) :
    Except RowErr Row :=
  let latitude := pile.matchesRef border .South
  match TileCloud.new pile
      ((pile.matchesRef border .East).filter (fun r => latitude.contains r))
      (.Prefer border) with
  | Except.error e => Except.error e
  | Except.ok west =>
    match boardClouds pile border board with
    | Except.error e => Except.error e
    | Except.ok mids =>
      match TileCloud.new pile
          ((pile.matchesRef border .West).filter (fun r => latitude.contains r))
          (.Prefer border) with
      | Except.error e => Except.error e
      | Except.ok east => Except.ok ⟨[west] ++ mids ++ [east], border⟩

/-- The constraint sweep of `Row::to_vec` (its first loop): each cloud is
constrained westward against its already-swept predecessor, then eastward
against its still-raw successor; a failed `constrain` raises
`UnsatisfiableConstraints`.  `done` holds the already-swept clouds in
reverse order. -/
def constrainPred (pile : DominoPile) (done : List TileCloud)
    (c : TileCloud) : Except RowErr TileCloud :=
  match done with
  | [] => Except.ok c
  | pred :: _ =>
    match c.constrain pile pred .West with
    | Except.ok c2 => Except.ok c2
    | Except.error _ => Except.error RowErr.UnsatisfiableConstraints

def constrainSucc (pile : DominoPile) (rest : List TileCloud)
    (c : TileCloud) : Except RowErr TileCloud :=
  match rest with
  | [] => Except.ok c
  | succ :: _ =>
    match c.constrain pile succ .East with
    | Except.ok c2 => Except.ok c2
    | Except.error _ => Except.error RowErr.UnsatisfiableConstraints

def sweepAux (pile : DominoPile) (done : List TileCloud) :
    List TileCloud → Except RowErr (List TileCloud)
  | [] => Except.ok done.reverse
  | c :: rest =>
    match constrainPred pile done c with
    | Except.error e => Except.error e
    | Except.ok cw =>
      match constrainSucc pile rest cw with
      | Except.error e => Except.error e
      | Except.ok ce => sweepAux pile (ce :: done) rest

/-- The selection loop of `Row::to_vec`: `select()` on every cloud. -/
def selectAll : List TileCloud → Except RowErr (List TileRef)
  | [] => Except.ok []
  | c :: rest =>
    match c.select with
    | Except.error e => Except.error e
    | Except.ok r =>
      match selectAll rest with
      | Except.error e => Except.error e
      | Except.ok rs => Except.ok (r :: rs)

/-- The frontier trimming of `Row::to_vec`: drop the first and/or last
selected ref iff it equals the border. -/
def trimBorder (border : TileRef) (sel : List TileRef) : List TileRef :=
  let sel := match sel with
    | r :: rest => if r = border then rest else r :: rest
    | [] => []
  match sel.getLast? with
  | some r => if r = border then sel.dropLast else sel
  | none => sel

/-- `Row::to_vec`: sweep, then select every cloud and trim the frontier
border tiles. -/
def Row.to_vec (self : Row) (pile : DominoPile) : Except RowErr (List TileRef) :=
  match sweepAux pile [] self.row with
  | Except.error e => Except.error e
  | Except.ok clouds =>
    match selectAll clouds with
    | Except.error e => Except.error e
    | Except.ok sel => Except.ok (trimBorder self.border sel)

/-! ### Program runtime (`src/mosaic.rs`) -/

/-- `struct Program`. -/
structure Program where
  pile : DominoPile
  border : TileRef
  io : IoState
  state : List TileRef
deriving DecidableEq, Repr

/-- `Program::state()` — the current row as tiles. -/
def Program.stateTiles (p : Program) : List Tile :=
  p.state.map p.pile.tile

/-- The `InvalidInputAlts` validation in `Program::new`: each alt of an
`In` domino must agree with the main tile on north, east and west. -/
def altsConsistent (d : Domino) : Bool :=
  match d.side_effect with
  | .In a =>
    [a.1, a.2].all (fun alt =>
      [Direction.North, Direction.East, Direction.West].all
        (fun dir => alt.cardinal dir = d.tile.cardinal dir))
  | _ => true

def checkAlts : List Domino → Except MosaicErr Unit
  | [] => Except.ok ()
  | d :: rest =>
    if altsConsistent d then checkAlts rest
    else Except.error (.InvalidInputAlts d)

/-- The initial-state consistency loop of `Program::new`: each tile's west
pip must equal its predecessor's east pip (the border at the west end) and
its east pip its successor's west pip (the border at the east end). -/
def checkInitialFrom (border_tile : Tile) (pred : Tile) :
    List Tile → Except MosaicErr Unit
  | [] => Except.ok ()
  | t :: rest =>
    if t.cardinal .West ≠ pred.cardinal .East then
      Except.error (.InvalidInitialTile t)
    else
      let succ := match rest with
        | [] => border_tile
        | s :: _ => s
      if t.cardinal .East ≠ succ.cardinal .West then
        Except.error (.InvalidInitialTile t)
      else checkInitialFrom border_tile t rest

/-- The ref-conversion loop of `Program::new`: look every initial tile up
in the pile. -/
def refsOf (tiles : DominoPile) : List Tile → Except MosaicErr (List TileRef)
  | [] => Except.ok []
  | t :: rest =>
    match tiles.get t with
    | none => Except.error (.InvalidTile t)
    | some r => (refsOf tiles rest).map (fun l => r :: l)

/-- `Program::new`.  `set` lists the elements of the `HashSet<Domino>`
(duplicate-free, in an order modelling hash iteration); `stdin` is the
byte stream behind the `IoBuffer::new()` stdin handle. -/
def Program.new (set : List Domino) (border_tile : Tile) (initial : List Tile)
    (stdin : List Nat) : Except MosaicErr Program :=
  if set.length ≥ UNALLOCATED_PIP then Except.error .TooManyTiles
  else if initial.length = 0 then Except.error .EmptyInitialState
  else do
    checkAlts set
    let tiles := DominoPile.new set
    let border ← match tiles.get border_tile with
      | none => Except.error (MosaicErr.InvalidTileBorder border_tile)
      | some b => Except.ok b
    let state ← refsOf tiles initial
    checkInitialFrom border_tile border_tile initial
    Except.ok ⟨tiles, border, IoState.new stdin, state⟩

/-- `Program::perform_io`: pointwise over the row; `Out(bit)` puts the
bit, `In(alts)` gets a bit and swaps in the matching alt, `Pure` passes
through.  The paired `IoState` is the buffer state after the call, also
on error (the source mutates `self.io` in place). -/
def perform_io (pile : DominoPile) :
    List TileRef → IoState → Except MosaicErr (List TileRef) × IoState
  | [], io => (Except.ok [], io)
  | r :: rest, io =>
    match pile.get_side_effects r with
    | none => (Except.error .Panicked, io)
    | some (.Out bit) =>
      let io := ioPut io bit
      let p := perform_io pile rest io
      (p.1.map (fun l => r :: l), p.2)
    | some (.In alts) =>
      match ioGet io with
      | (Except.error _, io2) => (Except.error .Io, io2)
      | (Except.ok bit, io2) =>
        let r2 := if bit then alts.2 else alts.1
        let p := perform_io pile rest io2
        (p.1.map (fun l => r2 :: l), p.2)
    | some (.Pure _) =>
      let p := perform_io pile rest io
      (p.1.map (fun l => r :: l), p.2)

/-- `Program::step`: row evolver, then I/O resolution, then row
replacement.  The paired `Program` is the post-call state (`&mut self`). -/
def Program.step (p : Program) : Except MosaicErr Unit × Program :=
  match (Row.new p.pile p.border p.state).bind (fun row => row.to_vec p.pile) with
  | Except.error e => (Except.error (.RowE e), p)
  | Except.ok next =>
    match perform_io p.pile next p.io with
    | (Except.error e, io) => (Except.error e, { p with io := io })
    | (Except.ok next2, io) => (Except.ok (), { p with state := next2, io := io })

/-! ### Spec-side predicates -/

/-- The spec's row self-consistency: for every adjacent pair `(a, b)` of
the row, `a`'s east pip equals `b`'s west pip. -/
def rowConsistent (pile : DominoPile) (row : List TileRef) : Prop :=
  List.Chain' (fun a b => (pile.tile a).east = (pile.tile b).west) row

/-- The LSB-first byte assembled from eight bits (bit 0 transmitted
first), used to state what `put` flushes. -/
def byteFrom (b0 b1 b2 b3 b4 b5 b6 b7 : Bool) : Nat :=
  b0.toNat + 2 * b1.toNat + 4 * b2.toNat + 8 * b3.toNat + 16 * b4.toNat
    + 32 * b5.toNat + 64 * b6.toNat + 128 * b7.toNat

/-- Whether a domino is counted by the watermark fold of
`DominoPile::new` (everything that is not `Pure`). -/
def isImpure (d : Domino) : Bool :=
  match d.side_effect with
  | .Pure _ => false
  | _ => true

/-- The guarantee `TileCloud::constrain` leaves between a cloud and its
already-swept western neighbour: every remaining member's west pip is an
east pip of some member of the neighbour. -/
def cloudRel (pile : DominoPile) (c c' : TileCloud) : Prop :=
  ∀ r ∈ c'.cloud, (pile.tile r).cardinal .West ∈ c.positional_pips pile .East

/-- A placeholder program (used only as the unreachable fallback when a
concrete `Program.new` below is unpacked). -/
def emptyProgram : Program :=
  ⟨DominoPile.new [], 0, IoState.new [], []⟩

/-! ### Concrete instances used by counterexamples and witnesses -/

/-- A pile in which two dominoes with different side effects share one
tile: the `Tile -> TileRef` index then only knows the later buffer slot. -/
def dupTile : Tile := Tile.new 0 0 0 0

def dupDominoes : List Domino :=
  [Domino.output dupTile true, Domino.pureTile dupTile]

/-- An all-`Pure` tile set on which the row evolver leaves two adjacent
clouds ambiguous: cell one can resolve to east pip 1 or 2, cell two to
west pip 1 or 2, and nothing ties the two selections together. -/
def ambBorder : Tile := Tile.new 0 0 0 0

def ambDominoes : List Domino :=
  [ambBorder, Tile.new 0 0 5 0, Tile.new 0 0 6 0, Tile.new 5 1 7 0,
    Tile.new 5 2 7 0, Tile.new 6 0 8 2, Tile.new 6 0 8 1].map Domino.pureTile

def ambProgram : Program :=
  match Program.new ambDominoes ambBorder [Tile.new 0 0 5 0, Tile.new 0 0 6 0] [] with
  | Except.ok p => p
  | Except.error _ => emptyProgram

/-- The `set_and_shift` tile machine of the source's tests. -/
def shiftDominoes : List Domino :=
  [Tile.new 0 0 0 0, Tile.new 0 0 10 0, Tile.new 10 7 1 0, Tile.new 1 0 1 0,
    Tile.new 0 0 10 7].map Domino.pureTile

def shiftProgram : Program :=
  match Program.new shiftDominoes (Tile.new 0 0 0 0) [Tile.new 0 0 10 0] [] with
  | Except.ok p => p
  | Except.error _ => emptyProgram

/-- The first row the `set_and_shift` program builds, its swept clouds,
and the program state after one step (used concretely below). -/
def shiftRow : Row :=
  match Row.new shiftProgram.pile shiftProgram.border shiftProgram.state with
  | Except.ok r => r
  | Except.error _ => ⟨[], 0⟩

def shiftClouds : List TileCloud :=
  match sweepAux shiftProgram.pile [] shiftRow.row with
  | Except.ok c => c
  | Except.error _ => []

def shiftStepped : Program :=
  (shiftProgram.step).2

/-- The `impossible_constraints` tile machine of the source's tests: the
starter tile's south pip `0xbad` matches no north pip. -/
def unsatDominoes : List Domino :=
  [Tile.new 0 0 0 0, Tile.new 0 0 0xbad 0, Tile.new 10 7 1 0, Tile.new 1 0 1 0,
    Tile.new 0 0 10 7].map Domino.pureTile

def unsatProgram : Program :=
  match Program.new unsatDominoes (Tile.new 0 0 0 0) [Tile.new 0 0 0xbad 0] [] with
  | Except.ok p => p
  | Except.error _ => emptyProgram

/-- A pile whose border tile has distinct east (`0`) and west (`9`)
pips, separating the two readings of the west-frontier membership rule. -/
def asymBorder : Tile := Tile.new 0 0 0 9

def asymMember : Tile := Tile.new 0 5 5 0

def asymDominoes : List Domino :=
  [asymBorder, asymMember].map Domino.pureTile

/-! ## Infrastructure lemmas: the association-map model -/

theorem assocGet_insert [DecidableEq α] (m : List (α × β)) (k k' : α) (v : β) :
    assocGet (assocInsert m k v) k' = if k' = k then some v else assocGet m k' := by
  induction m with
  | nil =>
    by_cases h : k = k'
    · simp [assocInsert, assocGet, h]
    · have h2 : ¬ k' = k := fun e => h e.symm
      simp [assocInsert, assocGet, h, h2]
  | cons p m ih =>
    by_cases hpk : p.1 = k
    · have hfilter : assocInsert (p :: m) k v = assocInsert m k v := by
        simp [assocInsert, List.filter_cons, hpk]
      rw [hfilter, ih]
      by_cases h : k' = k
      · simp [h]
      · have hpk' : ¬ p.1 = k' := by
          rw [hpk]
          exact fun e => h e.symm
        rw [if_neg h, if_neg h]
        simp [assocGet, hpk']
    · have hfilter : assocInsert (p :: m) k v = p :: assocInsert m k v := by
        simp [assocInsert, List.filter_cons, hpk]
      rw [hfilter]
      by_cases hpk' : p.1 = k'
      · have h : ¬ k' = k := fun e => hpk (e ▸ hpk')
        simp [assocGet, hpk', h]
      · simp only [assocGet, if_neg hpk']
        exact ih

theorem buildIndex_append (l : List Tile) (a : Tile) :
    buildIndex (l ++ [a]) = assocInsert (buildIndex l) a l.length := by
  simp [buildIndex, List.enum_append, List.foldl_append, List.enumFrom_singleton]

theorem concat_getElem?_cases {l : List Tile} {a t : Tile} {j : Nat}
    (h : (l ++ [a])[j]? = some t) :
    (j < l.length ∧ l[j]? = some t) ∨ (j = l.length ∧ t = a) := by
  rw [List.getElem?_append] at h
  by_cases hj : j < l.length
  · exact Or.inl ⟨hj, by rwa [if_pos hj] at h⟩
  · right
    rw [if_neg hj] at h
    have hlen : j - l.length < 1 := by
      have := (List.getElem?_eq_some_iff.mp h).1
      simpa using this
    have hj2 : j = l.length := by omega
    subst hj2
    simp only [Nat.sub_self] at h
    exact ⟨rfl, by simpa using h.symm⟩

/-- `assocGet` on the built index returns exactly the index of the last
occurrence of the tile in the buffer. -/
theorem assocGet_buildIndex (l : List Tile) (t : Tile) (i : Nat) :
    assocGet (buildIndex l) t = some i ↔
      (l[i]? = some t ∧ ∀ j, i < j → l[j]? ≠ some t) := by
  induction l using List.reverseRecOn generalizing i with
  | nil => simp [buildIndex, assocGet]
  | append_singleton l a ih =>
    rw [buildIndex_append, assocGet_insert]
    by_cases h : t = a
    · subst h
      rw [if_pos rfl]
      constructor
      · rintro ⟨rfl⟩
        refine ⟨List.getElem?_concat_length l t, ?_⟩
        intro j hj hcon
        rcases concat_getElem?_cases hcon with ⟨hjl, _⟩ | ⟨hjl, _⟩ <;> omega
      · rintro ⟨hget, hlast⟩
        by_cases hi : i = l.length
        · simp [hi]
        · exfalso
          rcases concat_getElem?_cases hget with ⟨hjl, _⟩ | ⟨hjl, _⟩
          · exact hlast l.length (by omega) (List.getElem?_concat_length l t)
          · exact hi hjl
    · rw [if_neg h, ih]
      constructor
      · rintro ⟨hget, hlast⟩
        have hi : i < l.length := (List.getElem?_eq_some_iff.mp hget).1
        refine ⟨by rw [List.getElem?_append, if_pos hi]; exact hget, ?_⟩
        intro j hj hcon
        rcases concat_getElem?_cases hcon with ⟨_, hc⟩ | ⟨_, hc⟩
        · exact hlast j hj hc
        · exact h hc
      · rintro ⟨hget, hlast⟩
        rcases concat_getElem?_cases hget with ⟨hi, hc⟩ | ⟨_, hc⟩
        · refine ⟨hc, ?_⟩
          intro j hj hcon
          have hjl : j < l.length := (List.getElem?_eq_some_iff.mp hcon).1
          refine hlast j hj ?_
          rw [List.getElem?_append, if_pos hjl]
          exact hcon
        · exact absurd hc h

theorem mem_assocInsert [DecidableEq α] (m : List (α × β)) (k : α) (v : β) (p : α × β) :
    p ∈ assocInsert m k v ↔ (p.1 ≠ k ∧ p ∈ m) ∨ p = (k, v) := by
  simp only [assocInsert, List.mem_append, List.mem_filter, List.mem_singleton]
  constructor
  · rintro (⟨hm, hk⟩ | he)
    · exact Or.inl ⟨by simpa using hk, hm⟩
    · exact Or.inr he
  · rintro (⟨hk, hm⟩ | he)
    · exact Or.inl ⟨hm, by simpa using hk⟩
    · exact Or.inr he

/-- The built index holds exactly the bindings `assocGet` reports. -/
theorem mem_buildIndex (l : List Tile) (t : Tile) (i : Nat) :
    (t, i) ∈ buildIndex l ↔ assocGet (buildIndex l) t = some i := by
  induction l using List.reverseRecOn generalizing i with
  | nil => simp [buildIndex, assocGet]
  | append_singleton l a ih =>
    rw [buildIndex_append, mem_assocInsert, assocGet_insert]
    by_cases h : t = a
    · subst h
      rw [if_pos rfl]
      constructor
      · rintro (⟨hne, _⟩ | heq)
        · exact absurd rfl hne
        · rw [Prod.mk.injEq] at heq
          rw [heq.2]
      · intro hg
        obtain rfl := Option.some_inj.mp hg
        exact Or.inr rfl
    · rw [if_neg h]
      constructor
      · rintro (⟨_, hm⟩ | heq)
        · exact (ih i).mp hm
        · rw [Prod.mk.injEq] at heq
          exact absurd heq.1 h
      · intro hg
        exact Or.inl ⟨h, (ih i).mpr hg⟩

theorem mem_exists_buildIndex (l : List Tile) (t : Tile) (h : t ∈ l) :
    ∃ i, assocGet (buildIndex l) t = some i := by
  induction l using List.reverseRecOn with
  | nil => cases h
  | append_singleton l a ih =>
    rw [buildIndex_append]
    by_cases he : t = a
    · exact ⟨l.length, by rw [assocGet_insert, if_pos he]⟩
    · rcases List.mem_append.mp h with hl | hr
      · rcases ih hl with ⟨i, hi⟩
        exact ⟨i, by rw [assocGet_insert, if_neg he]; exact hi⟩
      · exact absurd (List.mem_singleton.mp hr) he

/-! ## Infrastructure lemmas: the sorted pile -/

theorem watermark_foldl (l : List Domino) : ∀ n : Nat,
    l.foldl
      (fun i x => match x.side_effect with
        | .Pure _ => i
        | _ => i + 1) n = n + l.countP isImpure := by
  induction l with
  | nil => simp
  | cons x xs ih =>
    intro n
    rw [List.foldl_cons, ih, List.countP_cons]
    cases hse : x.side_effect <;> simp [isImpure, hse] <;> omega

theorem watermarkOf_eq_countP (l : List Domino) :
    watermarkOf l = l.countP isImpure := by
  simpa using watermark_foldl l 0

theorem isImpure_iff_rank (d : Domino) :
    isImpure d = true ↔ d.side_effect.rank ≤ 1 := by
  cases hse : d.side_effect <;> simp [isImpure, SideEffects.rank, hse]

/-- In a side-effect-sorted list, the positions below the count of
dominoes of rank at most `m` are exactly those whose rank is at most
`m`. -/
theorem sorted_countP_rank (m : Nat) :
    ∀ (l : List Domino), l.Sorted seLe → ∀ i (hi : i < l.length),
      (i < l.countP (fun d => d.side_effect.rank ≤ m) ↔
        (l.get ⟨i, hi⟩).side_effect.rank ≤ m) := by
  intro l
  induction l with
  | nil => intro _ i hi; cases hi
  | cons x xs ih =>
    intro hs i hi
    rw [List.sorted_cons] at hs
    obtain ⟨hx, hxs⟩ := hs
    by_cases hpx : x.side_effect.rank ≤ m
    · have hc : (x :: xs).countP (fun d => d.side_effect.rank ≤ m)
          = xs.countP (fun d => d.side_effect.rank ≤ m) + 1 := by
        simp [List.countP_cons, hpx]
      rw [hc]
      cases i with
      | zero =>
        constructor
        · intro _; exact hpx
        · intro _; exact Nat.succ_pos _
      | succ i =>
        have hi' : i < xs.length := by simpa using hi
        have hget : (x :: xs).get ⟨i + 1, hi⟩ = xs.get ⟨i, hi'⟩ := rfl
        rw [hget]
        have hiff := ih hxs i hi'
        constructor
        · intro hlt; exact hiff.mp (by omega)
        · intro hr; have := hiff.mpr hr; omega
    · have hcnt : xs.countP (fun d => d.side_effect.rank ≤ m) = 0 := by
        rw [List.countP_eq_zero]
        intro d hd
        have := hx d hd
        unfold seLe at this
        simp only [decide_eq_true_eq]
        omega
      have hc : (x :: xs).countP (fun d => d.side_effect.rank ≤ m) = 0 := by
        simp [List.countP_cons, hpx, hcnt]
      rw [hc]
      cases i with
      | zero =>
        constructor
        · intro hlt; cases hlt
        · intro hr; exact absurd hr hpx
      | succ i =>
        have hi' : i < xs.length := by simpa using hi
        have hget : (x :: xs).get ⟨i + 1, hi⟩ = xs.get ⟨i, hi'⟩ := rfl
        rw [hget]
        have hrank : ¬ (xs.get ⟨i, hi'⟩).side_effect.rank ≤ m := by
          have hmem : xs.get ⟨i, hi'⟩ ∈ xs := List.get_mem xs i hi'
          have := hx (xs.get ⟨i, hi'⟩) hmem
          unfold seLe at this
          omega
        constructor
        · intro hlt; cases hlt
        · intro hr; exact absurd hr hrank

/-! ## Infrastructure lemmas: `DominoPile.new` -/

theorem pile_buffer_eq (ds : List Domino) :
    (DominoPile.new ds).buffer
      = (sortedOf ds).map (fun d => d.tile) ++ altsOf (sortedOf ds) := rfl

theorem pile_as_ref_eq (ds : List Domino) :
    (DominoPile.new ds).as_ref = buildIndex (DominoPile.new ds).buffer := rfl

theorem pile_inputTbl_eq (ds : List Domino) :
    (DominoPile.new ds).inputTbl
      = inputTblOf (sortedOf ds) (DominoPile.new ds).as_ref := rfl

theorem pile_outputTbl_eq (ds : List Domino) :
    (DominoPile.new ds).outputTbl
      = outputTblOf (sortedOf ds) (DominoPile.new ds).as_ref := rfl

theorem pile_impure_eq (ds : List Domino) :
    (DominoPile.new ds).impure_watermark = watermarkOf (sortedOf ds) := rfl

theorem pile_hidden_eq (ds : List Domino) :
    (DominoPile.new ds).hidden_watermark = (sortedOf ds).length := by
  simp [DominoPile.new]

theorem pile_impure_le_hidden (ds : List Domino) :
    (DominoPile.new ds).impure_watermark ≤ (DominoPile.new ds).hidden_watermark := by
  rw [pile_impure_eq, pile_hidden_eq, watermarkOf_eq_countP]
  exact List.countP_le_length _

theorem countP_impure_eq_rank (l : List Domino) :
    l.countP isImpure = l.countP (fun d => d.side_effect.rank ≤ 1) := by
  apply List.countP_congr
  intro d _
  cases hse : d.side_effect <;> simp [isImpure, SideEffects.rank, hse]

/-- A ref below the impure watermark indexes a non-`Pure` domino of the
sorted list. -/
theorem lt_impure_rank (ds : List Domino) (r : TileRef)
    (hr : r < (DominoPile.new ds).impure_watermark) :
    ∃ h : r < (sortedOf ds).length,
      ((sortedOf ds).get ⟨r, h⟩).side_effect.rank ≤ 1 := by
  rw [pile_impure_eq, watermarkOf_eq_countP, countP_impure_eq_rank] at hr
  have hlen : r < (sortedOf ds).length :=
    Nat.lt_of_lt_of_le hr (List.countP_le_length _)
  refine ⟨hlen, ?_⟩
  exact (sorted_countP_rank 1 (sortedOf ds)
    (List.sorted_insertionSort seLe ds) r hlen).mp hr

theorem sortedOf_sorted (ds : List Domino) : (sortedOf ds).Sorted seLe :=
  List.sorted_insertionSort seLe ds

theorem pile_buffer_getElem_lt (ds : List Domino) (r : TileRef)
    (hr : r < (sortedOf ds).length) :
    (DominoPile.new ds).buffer[r]? = some ((sortedOf ds).get ⟨r, hr⟩).tile := by
  rw [pile_buffer_eq, List.getElem?_append, if_pos (by simpa using hr)]
  rw [List.getElem?_map, List.getElem?_eq_getElem hr]
  simp

theorem assocGet_isSome_iff [DecidableEq α] (m : List (α × β)) (k : α) :
    (assocGet m k).isSome ↔ ∃ p ∈ m, p.1 = k := by
  induction m with
  | nil => simp [assocGet]
  | cons p rest ih =>
    by_cases hp : p.1 = k
    · simp only [assocGet, if_pos hp, Option.isSome_some, true_iff]
      exact ⟨p, List.mem_cons_self p rest, hp⟩
    · simp only [assocGet, if_neg hp, ih, List.mem_cons]
      constructor
      · rintro ⟨q, hq, he⟩
        exact ⟨q, Or.inr hq, he⟩
      · rintro ⟨q, hq | hq, he⟩
        · subst hq; exact absurd he hp
        · exact ⟨q, hq, he⟩

theorem assocGet_eq_some_mem [DecidableEq α] (m : List (α × β)) (k : α) (v : β)
    (h : assocGet m k = some v) : (k, v) ∈ m := by
  induction m with
  | nil => cases h
  | cons p rest ih =>
    by_cases hp : p.1 = k
    · rw [assocGet, if_pos hp] at h
      obtain rfl := Option.some_inj.mp h
      have hpe : p = (k, p.2) := by rw [← hp]
      exact List.mem_cons.mpr (Or.inl hpe.symm)
    · rw [assocGet, if_neg hp] at h
      exact List.mem_cons_of_mem _ (ih h)

theorem as_ref_some_getElem (ds : List Domino) (t : Tile) (r : TileRef)
    (h : assocGet (DominoPile.new ds).as_ref t = some r) :
    (DominoPile.new ds).buffer[r]? = some t := by
  rw [pile_as_ref_eq] at h
  exact ((assocGet_buildIndex _ t r).mp h).1

theorem as_ref_some_last (ds : List Domino) (t : Tile) (r : TileRef)
    (h : assocGet (DominoPile.new ds).as_ref t = some r) :
    ∀ j, r < j → (DominoPile.new ds).buffer[j]? ≠ some t := by
  rw [pile_as_ref_eq] at h
  exact ((assocGet_buildIndex _ t r).mp h).2

theorem mains_mem_buffer (ds : List Domino) (d : Domino) (hd : d ∈ sortedOf ds) :
    d.tile ∈ (DominoPile.new ds).buffer := by
  rw [pile_buffer_eq]
  exact List.mem_append_left _ (List.mem_map_of_mem _ hd)

theorem altsOf_acc (l : List Domino) : ∀ acc : List Tile,
    l.foldl
      (fun acc d => match d.side_effect with
        | .In a => acc ++ [a.1, a.2]
        | _ => acc) acc = acc ++ altsOf l := by
  induction l with
  | nil => intro acc; simp [altsOf]
  | cons d rest ih =>
    intro acc
    rw [List.foldl_cons, ih]
    have hh : altsOf (d :: rest)
        = (match d.side_effect with
            | SideEffects.In a => [a.1, a.2]
            | _ => []) ++ altsOf rest := by
      unfold altsOf
      rw [List.foldl_cons, ih]
      cases hse : d.side_effect <;> simp [hse, altsOf]
    rw [hh]
    cases hse : d.side_effect <;> simp [hse, altsOf]

theorem alts_mem_altsOf (l : List Domino) (d : Domino) (a : Tile × Tile)
    (hd : d ∈ l) (hse : d.side_effect = .In a) :
    a.1 ∈ altsOf l ∧ a.2 ∈ altsOf l := by
  induction l with
  | nil => cases hd
  | cons x rest ih =>
    have hx : altsOf (x :: rest)
        = (match x.side_effect with
            | SideEffects.In b => [b.1, b.2]
            | _ => []) ++ altsOf rest := by
      unfold altsOf
      rw [List.foldl_cons, altsOf_acc]
      cases hx2 : x.side_effect <;> simp [hx2, altsOf]
    rw [hx]
    rcases List.mem_cons.mp hd with rfl | hmem
    · rw [hse]
      simp
    · have := ih hmem
      cases x.side_effect <;> simp [this.1, this.2]

theorem alts_mem_buffer (ds : List Domino) (d : Domino) (a : Tile × Tile)
    (hd : d ∈ sortedOf ds) (hse : d.side_effect = .In a) :
    a.1 ∈ (DominoPile.new ds).buffer ∧ a.2 ∈ (DominoPile.new ds).buffer := by
  rw [pile_buffer_eq]
  have := alts_mem_altsOf (sortedOf ds) d a hd hse
  exact ⟨List.mem_append_right _ this.1, List.mem_append_right _ this.2⟩

theorem tile_of_getElem? (ds : List Domino) (r : TileRef) (t : Tile)
    (h : (DominoPile.new ds).buffer[r]? = some t) :
    (DominoPile.new ds).tile r = t := by
  rw [DominoPile.tile, List.getD_eq_getElem?_getD, h]
  rfl

theorem nodup_last_assocGet (l : List Tile) (hnd : l.Nodup) (r : Nat) (t : Tile)
    (hg : l[r]? = some t) : assocGet (buildIndex l) t = some r := by
  refine (assocGet_buildIndex l t r).mpr ⟨hg, ?_⟩
  intro j hj hc
  obtain ⟨hr2, he2⟩ := List.getElem?_eq_some_iff.mp hg
  obtain ⟨hj2, he3⟩ := List.getElem?_eq_some_iff.mp hc
  have : r = j := (List.Nodup.getElem_inj_iff hnd).mp (he2.trans he3.symm)
  omega

/-- Unpack a hit in the pile's input lookup table: it comes from an `In`
domino of the sorted list whose tile's index is the key. -/
theorem inputTbl_some_src (ds : List Domino) (r : TileRef) (alts : TileRef × TileRef)
    (h : assocGet (DominoPile.new ds).inputTbl r = some alts) :
    ∃ d a, d ∈ sortedOf ds ∧ d.side_effect = .In a ∧
      assocGet (DominoPile.new ds).as_ref d.tile = some r ∧
      alts = ((assocGet (DominoPile.new ds).as_ref a.1).getD 0,
        (assocGet (DominoPile.new ds).as_ref a.2).getD 0) := by
  rw [pile_inputTbl_eq] at h
  have hmem := assocGet_eq_some_mem _ _ _ h
  unfold inputTblOf at hmem
  rcases List.mem_map.mp hmem with ⟨d, hdf, hfd⟩
  obtain ⟨hdl, hdi⟩ := List.mem_filter.mp hdf
  cases hse : d.side_effect with
  | Pure bias => rw [hse] at hdi; simp [SideEffects.isInput] at hdi
  | Out bit => rw [hse] at hdi; simp [SideEffects.isInput] at hdi
  | In a =>
    rw [hse] at hfd
    obtain ⟨hkey, halts⟩ := Prod.mk.injEq .. ▸ hfd
    obtain ⟨i, hi⟩ := mem_exists_buildIndex _ _ (mains_mem_buffer ds d hdl)
    rw [← pile_as_ref_eq] at hi
    refine ⟨d, a, hdl, hse, ?_, halts.symm⟩
    rw [hi]
    rw [hi] at hkey
    simpa using hkey

/-- Unpack a hit in the pile's output lookup table. -/
theorem outputTbl_some_src (ds : List Domino) (r : TileRef) (b : Bool)
    (h : assocGet (DominoPile.new ds).outputTbl r = some b) :
    ∃ d, d ∈ sortedOf ds ∧ d.side_effect = .Out b ∧
      assocGet (DominoPile.new ds).as_ref d.tile = some r := by
  rw [pile_outputTbl_eq] at h
  have hmem := assocGet_eq_some_mem _ _ _ h
  unfold outputTblOf at hmem
  rcases List.mem_map.mp hmem with ⟨d, hdf, hfd⟩
  obtain ⟨hdl, hdi⟩ := List.mem_filter.mp hdf
  cases hse : d.side_effect with
  | Pure bias => rw [hse] at hdi; simp [SideEffects.isOutput] at hdi
  | In a => rw [hse] at hdi; simp [SideEffects.isOutput] at hdi
  | Out bit =>
    rw [hse] at hfd
    obtain ⟨hkey, hbit⟩ := Prod.mk.injEq .. ▸ hfd
    obtain ⟨i, hi⟩ := mem_exists_buildIndex _ _ (mains_mem_buffer ds d hdl)
    rw [← pile_as_ref_eq] at hi
    subst hbit
    refine ⟨d, hdl, hse, ?_⟩
    rw [hi]
    rw [hi] at hkey
    simpa using hkey

/-- An `In` domino of the sorted list always yields a hit in the input
lookup table at its tile's index. -/
theorem inputTbl_isSome_of (ds : List Domino) (d : Domino) (a : Tile × Tile)
    (hd : d ∈ sortedOf ds) (hse : d.side_effect = .In a) (r : TileRef)
    (hkey : assocGet (DominoPile.new ds).as_ref d.tile = some r) :
    (assocGet (DominoPile.new ds).inputTbl r).isSome := by
  rw [pile_inputTbl_eq]
  rw [assocGet_isSome_iff]
  refine ⟨((assocGet (DominoPile.new ds).as_ref d.tile).getD 0,
    ((assocGet (DominoPile.new ds).as_ref a.1).getD 0,
      (assocGet (DominoPile.new ds).as_ref a.2).getD 0)), ?_, ?_⟩
  · unfold inputTblOf
    have hdf : d ∈ (sortedOf ds).filter (fun d => d.side_effect.isInput) :=
      List.mem_filter.mpr ⟨hd, by simp [SideEffects.isInput, hse]⟩
    have := List.mem_map_of_mem
      (fun d => match d.side_effect with
        | SideEffects.In a =>
          ((assocGet (DominoPile.new ds).as_ref d.tile).getD 0,
            ((assocGet (DominoPile.new ds).as_ref a.1).getD 0,
              (assocGet (DominoPile.new ds).as_ref a.2).getD 0))
        | _ => (0, (0, 0))) hdf
    simp only [] at this
    rw [hse] at this
    exact this
  · rw [hkey]
    rfl

theorem outputTbl_isSome_of (ds : List Domino) (d : Domino) (b : Bool)
    (hd : d ∈ sortedOf ds) (hse : d.side_effect = .Out b) (r : TileRef)
    (hkey : assocGet (DominoPile.new ds).as_ref d.tile = some r) :
    (assocGet (DominoPile.new ds).outputTbl r).isSome := by
  rw [pile_outputTbl_eq]
  rw [assocGet_isSome_iff]
  refine ⟨((assocGet (DominoPile.new ds).as_ref d.tile).getD 0, b), ?_, ?_⟩
  · unfold outputTblOf
    have hdf : d ∈ (sortedOf ds).filter (fun d => d.side_effect.isOutput) :=
      List.mem_filter.mpr ⟨hd, by simp [SideEffects.isOutput, hse]⟩
    have := List.mem_map_of_mem
      (fun d => match d.side_effect with
        | SideEffects.Out v => ((assocGet (DominoPile.new ds).as_ref d.tile).getD 0, v)
        | _ => (0, false)) hdf
    simp only [] at this
    rw [hse] at this
    exact this
  · rw [hkey]
    rfl

theorem rank_le_two (s : SideEffects T) : s.rank ≤ 2 := by
  cases s <;> simp [SideEffects.rank]

/-- Membership in `matches_pip`: the refs of index entries whose
`-direction` pip equals the queried pip. -/
theorem matches_pip_mem (ds : List Domino) (pip : Pip) (dir : Orientation) (r : TileRef) :
    r ∈ (DominoPile.new ds).matches_pip pip dir ↔
      ∃ t, assocGet (DominoPile.new ds).as_ref t = some r ∧ pip = t.cardinal (-dir) := by
  unfold DominoPile.matches_pip
  constructor
  · intro hmem
    rcases List.mem_map.mp hmem with ⟨p, hpf, hpr⟩
    obtain ⟨hpm, hpc⟩ := List.mem_filter.mp hpf
    refine ⟨p.1, ?_, by simpa using hpc⟩
    rw [pile_as_ref_eq] at hpm ⊢
    have := (mem_buildIndex _ p.1 p.2).mp (by simpa using hpm)
    rw [hpr] at this
    exact this
  · rintro ⟨t, hget, hpip⟩
    refine List.mem_map.mpr ⟨(t, r), ?_, rfl⟩
    refine List.mem_filter.mpr ⟨?_, by simpa using hpip⟩
    rw [pile_as_ref_eq] at hget ⊢
    exact (mem_buildIndex _ t r).mpr hget

/-- C5 and C10 both reason from this: what `get_side_effects` can return
below the impure watermark. -/
theorem gse_cases_lt_impure (ds : List Domino) (r : TileRef)
    (hr : r < (DominoPile.new ds).impure_watermark) :
    (DominoPile.new ds).get_side_effects r =
      (match assocGet (DominoPile.new ds).inputTbl r with
        | some alts => some (SideEffects.In alts)
        | none =>
          match assocGet (DominoPile.new ds).outputTbl r with
          | some v => some (SideEffects.Out v)
          | none => none) := by
  have hle := pile_impure_le_hidden ds
  have hh : ¬ r ≥ (DominoPile.new ds).hidden_watermark :=
    fun hc => absurd hr (Nat.not_lt.mpr (Nat.le_trans hle hc))
  have hi : ¬ r ≥ (DominoPile.new ds).impure_watermark := Nat.not_le.mpr hr
  rw [DominoPile.get_side_effects, if_neg hh, if_neg hi]

/-- C5 (ordering part), the only nontrivial case: a ref classified `In`
cannot sit to the left of a ref classified `Out`. -/
theorem no_in_before_out (ds : List Domino) (r1 r2 : TileRef) (hlt : r1 < r2)
    (hr2 : r2 < (DominoPile.new ds).impure_watermark)
    (a1 : TileRef × TileRef) (b2 : Bool)
    (hin1 : assocGet (DominoPile.new ds).inputTbl r1 = some a1)
    (hin2 : assocGet (DominoPile.new ds).inputTbl r2 = none)
    (hout2 : assocGet (DominoPile.new ds).outputTbl r2 = some b2) : False := by
  obtain ⟨d2, hd2, hse2, hkey2⟩ := outputTbl_some_src ds r2 b2 hout2
  obtain ⟨hlen2, hrank2⟩ := lt_impure_rank ds r2 hr2
  have hbuf2 : (DominoPile.new ds).buffer[r2]? = some d2.tile :=
    as_ref_some_getElem ds d2.tile r2 hkey2
  have hbuf2s := pile_buffer_getElem_lt ds r2 hlen2
  have htile2 : d2.tile = ((sortedOf ds).get ⟨r2, hlen2⟩).tile :=
    Option.some_inj.mp (hbuf2.symm.trans hbuf2s)
  cases hse2d : ((sortedOf ds).get ⟨r2, hlen2⟩).side_effect with
  | Pure bias =>
    rw [hse2d] at hrank2
    simp [SideEffects.rank] at hrank2
  | In a' =>
    -- the domino at slot r2 is an In domino whose tile indexes to r2,
    -- so the input table must hit at r2
    have hkey2' : assocGet (DominoPile.new ds).as_ref
        ((sortedOf ds).get ⟨r2, hlen2⟩).tile = some r2 := by
      rw [← htile2]; exact hkey2
    have := inputTbl_isSome_of ds ((sortedOf ds).get ⟨r2, hlen2⟩) a'
      (List.get_mem _ _ _) hse2d r2 (by rw [hkey2'])
    rw [hin2] at this
    cases this
  | Out b' =>
    -- slot r2 is Out-ranked; but the In domino behind r1 occupies an
    -- earlier slot, contradicting the sort order
    obtain ⟨d1, a1', hd1, hse1, hkey1, _⟩ := inputTbl_some_src ds r1 a1 hin1
    obtain ⟨⟨p1, hp1len⟩, hp1⟩ := List.mem_iff_get.mp hd1
    have hp1le : p1 ≤ r1 := by
      by_contra hgt
      have hlast := as_ref_some_last ds d1.tile r1 hkey1 p1 (Nat.not_le.mp hgt)
      have : (DominoPile.new ds).buffer[p1]? = some d1.tile := by
        rw [pile_buffer_getElem_lt ds p1 hp1len, hp1]
      exact hlast this
    have hrel := List.Sorted.rel_get_of_lt (sortedOf_sorted ds)
      (a := ⟨p1, hp1len⟩) (b := ⟨r2, hlen2⟩) (by simpa using Nat.lt_of_le_of_lt hp1le hlt)
    unfold seLe at hrel
    rw [hp1, hse1, hse2d] at hrel
    simp [SideEffects.rank] at hrel

/-- C5: for every pile built by `DominoPile::new`, refs are ordered
`Out ≤ In ≤ Pure` by `get_side_effects`, and the hidden region is exactly
the contiguous suffix of input-alternate tiles starting at the hidden
watermark. -/
theorem pile_ordering_hidden_suffix (ds : List Domino) :
    (∀ r1 r2 : TileRef, ∀ s1 s2 : SideEffects TileRef,
        r1 < r2 →
        (DominoPile.new ds).get_side_effects r1 = some s1 →
        (DominoPile.new ds).get_side_effects r2 = some s2 →
        s1.rank ≤ s2.rank)
    ∧ (DominoPile.new ds).buffer.drop (DominoPile.new ds).hidden_watermark
        = altsOf (sortedOf ds)
    ∧ (∀ r : TileRef,
        (DominoPile.new ds).get_side_effects r = some (.Pure .Hidden) ↔
          (DominoPile.new ds).hidden_watermark ≤ r) := by
  refine ⟨?_, ?_, ?_⟩
  · intro r1 r2 s1 s2 hlt h1 h2
    by_cases hh2 : r2 ≥ (DominoPile.new ds).hidden_watermark
    · rw [DominoPile.get_side_effects, if_pos hh2] at h2
      obtain rfl := Option.some_inj.mp h2
      exact rank_le_two s1
    · by_cases hi2 : r2 ≥ (DominoPile.new ds).impure_watermark
      · rw [DominoPile.get_side_effects, if_neg hh2, if_pos hi2] at h2
        obtain rfl := Option.some_inj.mp h2
        exact rank_le_two s1
      · have hr2 : r2 < (DominoPile.new ds).impure_watermark := Nat.not_le.mp hi2
        have hr1 : r1 < (DominoPile.new ds).impure_watermark := Nat.lt_trans hlt hr2
        rw [gse_cases_lt_impure ds r1 hr1] at h1
        rw [gse_cases_lt_impure ds r2 hr2] at h2
        cases hin1 : assocGet (DominoPile.new ds).inputTbl r1 with
        | none =>
          rw [hin1] at h1
          cases hout1 : assocGet (DominoPile.new ds).outputTbl r1 with
          | none => rw [hout1] at h1; cases h1
          | some b1 =>
            rw [hout1] at h1
            obtain rfl := Option.some_inj.mp h1.symm
            simp [SideEffects.rank]
        | some alt1 =>
          rw [hin1] at h1
          obtain rfl := Option.some_inj.mp h1.symm
          cases hin2 : assocGet (DominoPile.new ds).inputTbl r2 with
          | some alt2 =>
            rw [hin2] at h2
            obtain rfl := Option.some_inj.mp h2.symm
            simp [SideEffects.rank]
          | none =>
            rw [hin2] at h2
            cases hout2 : assocGet (DominoPile.new ds).outputTbl r2 with
            | none => rw [hout2] at h2; cases h2
            | some b2 =>
              exact absurd (no_in_before_out ds r1 r2 hlt hr2 alt1 b2 hin1 hin2 hout2)
                (by simp)
  · rw [pile_buffer_eq, pile_hidden_eq]
    have hlen : (sortedOf ds).length
        = ((sortedOf ds).map (fun d => d.tile)).length := by simp
    rw [hlen, List.drop_left]
  · intro r
    by_cases hh : r ≥ (DominoPile.new ds).hidden_watermark
    · rw [DominoPile.get_side_effects, if_pos hh]
      simpa using hh
    · rw [DominoPile.get_side_effects, if_neg hh]
      by_cases hi : r ≥ (DominoPile.new ds).impure_watermark
      · rw [if_pos hi]
        simpa using hh
      · rw [if_neg hi]
        cases hin : assocGet (DominoPile.new ds).inputTbl r with
        | some alts => simpa using hh
        | none =>
          cases hout : assocGet (DominoPile.new ds).outputTbl r with
          | some v => simpa using hh
          | none => simpa using hh

/-- C5 witness: concrete refs 2 < 3 of a concrete pile, both classified,
their ranks ordered by the theorem. -/
theorem pile_ordering_hidden_suffix_witness :
    ((2 : TileRef) < 3
      ∧ (DominoPile.new shiftDominoes).get_side_effects 2
          = some (.Pure .Nothing)
      ∧ (DominoPile.new shiftDominoes).get_side_effects 3
          = some (.Pure .Nothing))
    ∧ (SideEffects.Pure PurityBias.Nothing : SideEffects TileRef).rank
        ≤ (SideEffects.Pure PurityBias.Nothing : SideEffects TileRef).rank := by
  refine ⟨⟨by decide, by decide, by decide⟩, ?_⟩
  exact (pile_ordering_hidden_suffix shiftDominoes).1 2 3
    (.Pure .Nothing) (.Pure .Nothing) (by decide) (by decide) (by decide)

/-- C10 (amended): when no two buffer tiles coincide, `get_side_effects`
is total on in-range refs — the panic branch is unreachable. -/
theorem gse_total_of_nodup (ds : List Domino)
    (hnd : (DominoPile.new ds).buffer.Nodup) (r : TileRef)
    (hr : r < (DominoPile.new ds).buffer.length) :
    ((DominoPile.new ds).get_side_effects r).isSome := by
  by_cases hh : r ≥ (DominoPile.new ds).hidden_watermark
  · rw [DominoPile.get_side_effects, if_pos hh]
    rfl
  · by_cases hi : r ≥ (DominoPile.new ds).impure_watermark
    · rw [DominoPile.get_side_effects, if_neg hh, if_pos hi]
      rfl
    · have hri : r < (DominoPile.new ds).impure_watermark := Nat.not_le.mp hi
      rw [gse_cases_lt_impure ds r hri]
      obtain ⟨hlen, hrank⟩ := lt_impure_rank ds r hri
      have hbuf : (DominoPile.new ds).buffer[r]?
          = some ((sortedOf ds).get ⟨r, hlen⟩).tile :=
        pile_buffer_getElem_lt ds r hlen
      have hkey : assocGet (DominoPile.new ds).as_ref
          ((sortedOf ds).get ⟨r, hlen⟩).tile = some r := by
        rw [pile_as_ref_eq]
        exact nodup_last_assocGet _ hnd r _ hbuf
      cases hse : ((sortedOf ds).get ⟨r, hlen⟩).side_effect with
      | Pure bias =>
        rw [hse] at hrank
        simp [SideEffects.rank] at hrank
      | In a =>
        have hsome := inputTbl_isSome_of ds _ a (List.get_mem _ _ _) hse r hkey
        cases hin : assocGet (DominoPile.new ds).inputTbl r with
        | some alts => rfl
        | none => rw [hin] at hsome; cases hsome
      | Out b =>
        cases hin : assocGet (DominoPile.new ds).inputTbl r with
        | some alts => rfl
        | none =>
          have hsome := outputTbl_isSome_of ds _ b (List.get_mem _ _ _) hse r hkey
          cases hout : assocGet (DominoPile.new ds).outputTbl r with
          | some v => rfl
          | none => rw [hout] at hsome; cases hsome

/-- C10 counterexample: with an `Out` domino and a `Pure` domino sharing
one tile, the tile index only knows the later slot, and
`get_side_effects` reaches its panic branch (`none`) on the in-range
ref 0. -/
theorem gse_panics_on_dup :
    (DominoPile.new dupDominoes).get_side_effects 0 = none
      ∧ 0 < (DominoPile.new dupDominoes).buffer.length := by
  decide

/-- C10 witness. -/
theorem gse_total_of_nodup_witness :
    ((DominoPile.new shiftDominoes).buffer.Nodup
        ∧ 0 < (DominoPile.new shiftDominoes).buffer.length)
      ∧ ((DominoPile.new shiftDominoes).get_side_effects 0).isSome := by
  exact ⟨⟨by decide, by decide⟩,
    gse_total_of_nodup shiftDominoes (by decide) 0 (by decide)⟩

/-- Shared membership characterization of `matches` on a duplicate-free
pile (used by several claims below). -/
theorem matchesRef_mem_nodup (ds : List Domino)
    (hnd : (DominoPile.new ds).buffer.Nodup) (r : TileRef) (dir : Orientation)
    (r2 : TileRef) :
    r2 ∈ (DominoPile.new ds).matchesRef r dir ↔
      (r2 < (DominoPile.new ds).buffer.length
        ∧ ((DominoPile.new ds).tile r2).cardinal (-dir)
            = ((DominoPile.new ds).tile r).cardinal dir) := by
  unfold DominoPile.matchesRef DominoPile.matches_tile
  rw [matches_pip_mem]
  constructor
  · rintro ⟨t, hget, hpip⟩
    have hbuf := as_ref_some_getElem ds t r2 hget
    have hlen : r2 < (DominoPile.new ds).buffer.length :=
      (List.getElem?_eq_some_iff.mp hbuf).1
    refine ⟨hlen, ?_⟩
    rw [tile_of_getElem? ds r2 t hbuf]
    exact hpip.symm
  · rintro ⟨hlen, hpip⟩
    refine ⟨(DominoPile.new ds).tile r2, ?_, hpip.symm⟩
    rw [pile_as_ref_eq]
    refine nodup_last_assocGet _ hnd r2 _ ?_
    rw [DominoPile.tile, List.getD_eq_getElem?_getD,
      List.getElem?_eq_getElem hlen]
    rfl

/-- C6 (amended): when no two buffer tiles coincide, `matches(r, dir)`
returns exactly the refs whose `-dir` pip equals `r`'s pip on `dir`. -/
theorem matches_exact_of_nodup (ds : List Domino)
    (hnd : (DominoPile.new ds).buffer.Nodup) (r : TileRef) (dir : Orientation)
    (hr : r < (DominoPile.new ds).buffer.length) (r2 : TileRef) :
    r2 ∈ (DominoPile.new ds).matchesRef r dir ↔
      (r2 < (DominoPile.new ds).buffer.length
        ∧ ((DominoPile.new ds).tile r2).cardinal (-dir)
            = ((DominoPile.new ds).tile r).cardinal dir) :=
  matchesRef_mem_nodup ds hnd r dir r2

/-- C6 counterexample: on the duplicate-tile pile, ref 0 satisfies the
matching property for `matches(0, East)` but is not returned. -/
theorem matches_misses_dup :
    (0 : TileRef) ∉ (DominoPile.new dupDominoes).matchesRef 0 Direction.East
      ∧ 0 < (DominoPile.new dupDominoes).buffer.length
      ∧ ((DominoPile.new dupDominoes).tile 0).cardinal (-Direction.East)
          = ((DominoPile.new dupDominoes).tile 0).cardinal Direction.East := by
  decide

/-- C6 witness. -/
theorem matches_exact_of_nodup_witness :
    ((DominoPile.new shiftDominoes).buffer.Nodup
        ∧ 0 < (DominoPile.new shiftDominoes).buffer.length)
      ∧ ((1 : TileRef) ∈ (DominoPile.new shiftDominoes).matchesRef 0 Direction.East ↔
          (1 < (DominoPile.new shiftDominoes).buffer.length
            ∧ ((DominoPile.new shiftDominoes).tile 1).cardinal (-Direction.East)
                = ((DominoPile.new shiftDominoes).tile 0).cardinal Direction.East)) := by
  exact ⟨⟨by decide, by decide⟩,
    matches_exact_of_nodup shiftDominoes (by decide) 0 Direction.East (by decide) 1⟩

/-! ## C8: `TooManyTiles` is returned exactly at the tile-count bound -/

theorem checkAlts_err (l : List Domino) (e : MosaicErr)
    (h : checkAlts l = Except.error e) : ∃ d, e = .InvalidInputAlts d := by
  induction l with
  | nil => cases h
  | cons d rest ih =>
    by_cases hd : altsConsistent d
    · rw [checkAlts, if_pos hd] at h
      exact ih h
    · rw [checkAlts, if_neg hd] at h
      injection h with h2
      exact ⟨d, h2.symm⟩

theorem refsOf_err (tiles : DominoPile) (l : List Tile) (e : MosaicErr)
    (h : refsOf tiles l = Except.error e) : ∃ t, e = .InvalidTile t := by
  induction l with
  | nil => cases h
  | cons t rest ih =>
    rw [refsOf] at h
    cases hg : tiles.get t with
    | none =>
      rw [hg] at h
      injection h with h2
      exact ⟨t, h2.symm⟩
    | some r =>
      rw [hg] at h
      cases hrec : refsOf tiles rest with
      | error e2 =>
        rw [hrec] at h
        injection h with h2
        obtain rfl := h2
        exact ih hrec
      | ok l2 =>
        rw [hrec] at h
        cases h

theorem checkInitialFrom_err (bt : Tile) (l : List Tile) (e : MosaicErr) :
    ∀ pred : Tile, checkInitialFrom bt pred l = Except.error e →
      ∃ t, e = .InvalidInitialTile t := by
  induction l with
  | nil => intro pred h; cases h
  | cons t rest ih =>
    intro pred h
    simp only [checkInitialFrom] at h
    by_cases h1 : t.cardinal .West ≠ pred.cardinal .East
    · rw [if_pos h1] at h
      injection h with h2
      exact ⟨t, h2.symm⟩
    · rw [if_neg h1] at h
      by_cases h2 : t.cardinal .East ≠
          (match rest with
            | [] => bt
            | s :: _ => s).cardinal .West
      · rw [if_pos h2] at h
        injection h with h3
        exact ⟨t, h3.symm⟩
      · rw [if_neg h2] at h
        exact ih t h

/-- C8: `Program::new` returns `TooManyTiles` if and only if the domino
set's size is at least `UNALLOCATED_PIP`; every other outcome of
construction is `Ok` or a differently-shaped error. -/
theorem program_new_tooManyTiles_iff (set : List Domino) (border_tile : Tile)
    (initial : List Tile) (stdin : List Nat) :
    Program.new set border_tile initial stdin = Except.error MosaicErr.TooManyTiles ↔
      UNALLOCATED_PIP ≤ set.length := by
  constructor
  · intro h
    by_contra hlen
    rw [Program.new, if_neg hlen] at h
    by_cases h0 : initial.length = 0
    · rw [if_pos h0] at h
      injection h with h2
      cases h2
    · rw [if_neg h0] at h
      cases hca : checkAlts set with
      | error e =>
        rw [hca] at h
        injection h with h2
        obtain rfl := h2
        rcases checkAlts_err set _ hca with ⟨d, hd⟩
        cases hd
      | ok u =>
        cases u
        rw [hca] at h
        dsimp only [] at h
        cases hb : (DominoPile.new set).get border_tile with
        | none =>
          rw [hb] at h
          injection h with h2
          cases h2
        | some border =>
          rw [hb] at h
          cases hrefs : refsOf (DominoPile.new set) initial with
          | error e =>
            rw [hrefs] at h
            injection h with h2
            obtain rfl := h2
            rcases refsOf_err _ _ _ hrefs with ⟨t, ht⟩
            cases ht
          | ok state =>
            rw [hrefs] at h
            cases hci : checkInitialFrom border_tile border_tile initial with
            | error e =>
              rw [hci] at h
              injection h with h2
              obtain rfl := h2
              rcases checkInitialFrom_err border_tile initial _ border_tile hci with ⟨t, ht⟩
              cases ht
            | ok u2 =>
              cases u2
              rw [hci] at h
              cases h
  · intro h
    rw [Program.new, if_pos h]


/-! ## C9: eight `put` calls assemble one LSB-first byte -/

/-- C9: starting from a fresh output register (offset 0 — which in every
reachable `IoBuffer` also means an all-zero register, see
`ioPut_offset_zero_buffer` below), the first seven `put(b)` calls write
no byte, the eighth writes exactly one byte whose bit `i` is `b_i`
(bit 0 first), flushed to the sink, and resets the register. -/
theorem ioPut_byte (io : IoState) (b0 b1 b2 b3 b4 b5 b6 b7 : Bool)
    (h : io.output_buf = BitBuffer.new) :
    (ioPut io b0).output = io.output
    ∧ (ioPut (ioPut io b0) b1).output = io.output
    ∧ (ioPut (ioPut (ioPut io b0) b1) b2).output = io.output
    ∧ (ioPut (ioPut (ioPut (ioPut io b0) b1) b2) b3).output = io.output
    ∧ (ioPut (ioPut (ioPut (ioPut (ioPut io b0) b1) b2) b3) b4).output = io.output
    ∧ (ioPut (ioPut (ioPut (ioPut (ioPut (ioPut io b0) b1) b2) b3) b4) b5).output
        = io.output
    ∧ (ioPut (ioPut (ioPut (ioPut (ioPut (ioPut (ioPut io b0) b1) b2) b3) b4) b5)
        b6).output = io.output
    ∧ (ioPut (ioPut (ioPut (ioPut (ioPut (ioPut (ioPut (ioPut io b0) b1) b2) b3)
        b4) b5) b6) b7).output = io.output ++ [byteFrom b0 b1 b2 b3 b4 b5 b6 b7]
    ∧ ((byteFrom b0 b1 b2 b3 b4 b5 b6 b7).testBit 0 = b0
        ∧ (byteFrom b0 b1 b2 b3 b4 b5 b6 b7).testBit 1 = b1
        ∧ (byteFrom b0 b1 b2 b3 b4 b5 b6 b7).testBit 2 = b2
        ∧ (byteFrom b0 b1 b2 b3 b4 b5 b6 b7).testBit 3 = b3
        ∧ (byteFrom b0 b1 b2 b3 b4 b5 b6 b7).testBit 4 = b4
        ∧ (byteFrom b0 b1 b2 b3 b4 b5 b6 b7).testBit 5 = b5
        ∧ (byteFrom b0 b1 b2 b3 b4 b5 b6 b7).testBit 6 = b6
        ∧ (byteFrom b0 b1 b2 b3 b4 b5 b6 b7).testBit 7 = b7)
    ∧ (ioPut (ioPut (ioPut (ioPut (ioPut (ioPut (ioPut (ioPut io b0) b1) b2) b3)
        b4) b5) b6) b7).output_buf = BitBuffer.new := by
  obtain ⟨ibuf, obuf, inp, out⟩ := io
  simp only at h
  subst h
  refine ⟨rfl, rfl, rfl, rfl, rfl, rfl, rfl, ?_, ?_, rfl⟩
  · have hE : ∀ c0 c1 c2 c3 c4 c5 c6 c7 : Bool,
        (0 ||| ((if c0 then (1 : Nat) else 0) <<< 0)
          ||| ((if c1 then (1 : Nat) else 0) <<< 1)
          ||| ((if c2 then (1 : Nat) else 0) <<< 2)
          ||| ((if c3 then (1 : Nat) else 0) <<< 3)
          ||| ((if c4 then (1 : Nat) else 0) <<< 4)
          ||| ((if c5 then (1 : Nat) else 0) <<< 5)
          ||| ((if c6 then (1 : Nat) else 0) <<< 6)
          ||| ((if c7 then (1 : Nat) else 0) <<< 7))
          = byteFrom c0 c1 c2 c3 c4 c5 c6 c7 := by
      intro c0 c1 c2 c3 c4 c5 c6 c7
      cases c0 <;> cases c1 <;> cases c2 <;> cases c3 <;>
        cases c4 <;> cases c5 <;> cases c6 <;> cases c7 <;> decide
    exact congrArg (fun N => out ++ [N]) (hE b0 b1 b2 b3 b4 b5 b6 b7)
  · cases b0 <;> cases b1 <;> cases b2 <;> cases b3 <;>
      cases b4 <;> cases b5 <;> cases b6 <;> cases b7 <;> decide

/-- In every reachable `IoBuffer`, an output register at offset 0 is the
all-zero register: construction starts there, `put` only leaves offset 0
behind a full reset, and `get` does not touch the output register. -/
theorem ioPut_offset_zero_buffer (io : IoState) (bit : Bool)
    (h : io.output_buf.offset = 0 → io.output_buf.buffer = 0) :
    (ioPut io bit).output_buf.offset = 0 → (ioPut io bit).output_buf.buffer = 0 := by
  rw [ioPut]
  by_cases hoff : io.output_buf.offset + 1 = 8
  · rw [if_pos hoff]
    intro _
    rfl
  · rw [if_neg hoff]
    intro hc
    simp at hc

theorem ioGet_offset_zero_buffer (io : IoState)
    (h : io.output_buf.offset = 0 → io.output_buf.buffer = 0) :
    (ioGet io).2.output_buf.offset = 0 → (ioGet io).2.output_buf.buffer = 0 := by
  rw [ioGet]
  by_cases hoff : io.input_buf.offset = 0
  · rw [if_pos hoff]
    cases io.input with
    | nil => exact h
    | cons b rest => exact h
  · rw [if_neg hoff]
    exact h

/-- C9 witness. -/
theorem ioPut_byte_witness :
    (IoState.new []).output_buf = BitBuffer.new
    ∧ (ioPut (ioPut (ioPut (ioPut (ioPut (ioPut (ioPut (ioPut (IoState.new [])
        true) false) true) false) false) true) false) true).output
        = (IoState.new []).output ++ [byteFrom true false true false false true false true] := by
  exact ⟨rfl, (ioPut_byte (IoState.new []) true false true false false true
    false true rfl).2.2.2.2.2.2.2.1⟩

/-! ## C2: a failing `step` leaves the row intact -/

/-- C2: whenever `step` returns an error — row-evolver failure, selection
failure, or I/O failure — the program's row state is untouched, and
`state()` returns the same tiles as before. -/
theorem step_error_state_unchanged (p : Program) (e : MosaicErr)
    (h : (p.step).1 = Except.error e) :
    (p.step).2.state = p.state ∧ (p.step).2.stateTiles = p.stateTiles := by
  unfold Program.step at h ⊢
  split at h
  · exact ⟨rfl, rfl⟩
  · split at h
    · exact ⟨rfl, rfl⟩
    · exact Except.noConfusion h

/-- C2 witness: the `impossible_constraints` machine errors out and keeps
its single-tile row. -/
theorem step_error_state_unchanged_witness :
    (unsatProgram.step).1
        = Except.error (MosaicErr.RowE RowErr.UnsatisfiableConstraints)
      ∧ (unsatProgram.step).2.state = unsatProgram.state := by
  refine ⟨by rfl, ?_⟩
  exact (step_error_state_unchanged unsatProgram
    (MosaicErr.RowE RowErr.UnsatisfiableConstraints) (by rfl)).1

/-! ## C7: I/O resolution is a pointwise, order-preserving map -/

/-- Shared workhorse for C7 and C1: full pointwise characterization of a
successful `perform_io`. -/
theorem perform_io_spec (pile : DominoPile) (st : List TileRef) :
    ∀ (io : IoState) (next : List TileRef) (io2 : IoState),
    perform_io pile st io = (Except.ok next, io2) →
    next.length = st.length
    ∧ ∀ i (hi : i < st.length), ∃ pre ioMid,
        perform_io pile (st.take i) io = (Except.ok pre, ioMid)
        ∧ (match pile.get_side_effects (st.get ⟨i, hi⟩) with
            | some (.Pure b) => next[i]? = some (st.get ⟨i, hi⟩)
            | some (.Out bit) => next[i]? = some (st.get ⟨i, hi⟩)
            | some (.In alts) => ∃ b io3, ioGet ioMid = (Except.ok b, io3)
                ∧ next[i]? = some (if b then alts.2 else alts.1)
            | none => False) := by
  induction st with
  | nil =>
    intro io next io2 h
    rw [perform_io] at h
    simp only [Prod.mk.injEq, Except.ok.injEq] at h
    obtain ⟨rfl, rfl⟩ := h
    exact ⟨rfl, fun i hi => absurd hi (by simp)⟩
  | cons r rest ih =>
    intro io next io2 h
    rw [perform_io] at h
    cases hse : pile.get_side_effects r with
    | none =>
      rw [hse] at h
      simp at h
    | some se =>
      rw [hse] at h
      cases se with
      | Pure bias =>
        dsimp only at h
        rcases hrec : perform_io pile rest io with ⟨res, ioR⟩
        rw [hrec] at h
        dsimp only at h
        cases res with
        | error e => simp [Except.map] at h
        | ok next1 =>
          simp only [Except.map, Prod.mk.injEq, Except.ok.injEq] at h
          obtain ⟨rfl, rfl⟩ := h
          obtain ⟨ihlen, ihpw⟩ := ih io next1 ioR hrec
          refine ⟨by simp [ihlen], ?_⟩
          intro i hi
          cases i with
          | zero =>
            refine ⟨[], io, rfl, ?_⟩
            have hg0 : (r :: rest).get ⟨0, hi⟩ = r := rfl
            rw [hg0, hse]
            simp
          | succ i =>
            have hi2 : i < rest.length := by simpa using hi
            obtain ⟨pre, ioMid, hpre, hpw⟩ := ihpw i hi2
            refine ⟨r :: pre, ioMid, ?_, ?_⟩
            · show perform_io pile (r :: rest.take i) io = _
              rw [perform_io, hse]
              dsimp only
              rw [hpre]
              simp [Except.map]
            · have hg2 : (r :: rest).get ⟨i + 1, hi⟩ = rest.get ⟨i, hi2⟩ := rfl
              rw [hg2]
              have hnth : (r :: next1)[i + 1]? = next1[i]? := by simp
              cases hpwse : pile.get_side_effects (rest.get ⟨i, hi2⟩) with
              | none => rw [hpwse] at hpw; exact hpw
              | some se2 =>
                rw [hpwse] at hpw
                cases se2 with
                | Pure b2 => rw [hnth]; exact hpw
                | Out b2 => rw [hnth]; exact hpw
                | In alts2 =>
                  obtain ⟨b2, io3, hb2, hn⟩ := hpw
                  exact ⟨b2, io3, hb2, by rw [hnth]; exact hn⟩
      | Out bit =>
        dsimp only at h
        rcases hrec : perform_io pile rest (ioPut io bit) with ⟨res, ioR⟩
        rw [hrec] at h
        dsimp only at h
        cases res with
        | error e => simp [Except.map] at h
        | ok next1 =>
          simp only [Except.map, Prod.mk.injEq, Except.ok.injEq] at h
          obtain ⟨rfl, rfl⟩ := h
          obtain ⟨ihlen, ihpw⟩ := ih (ioPut io bit) next1 ioR hrec
          refine ⟨by simp [ihlen], ?_⟩
          intro i hi
          cases i with
          | zero =>
            refine ⟨[], io, rfl, ?_⟩
            have hg0 : (r :: rest).get ⟨0, hi⟩ = r := rfl
            rw [hg0, hse]
            simp
          | succ i =>
            have hi2 : i < rest.length := by simpa using hi
            obtain ⟨pre, ioMid, hpre, hpw⟩ := ihpw i hi2
            refine ⟨r :: pre, ioMid, ?_, ?_⟩
            · show perform_io pile (r :: rest.take i) io = _
              rw [perform_io, hse]
              dsimp only
              rw [hpre]
              simp [Except.map]
            · have hg2 : (r :: rest).get ⟨i + 1, hi⟩ = rest.get ⟨i, hi2⟩ := rfl
              rw [hg2]
              have hnth : (r :: next1)[i + 1]? = next1[i]? := by simp
              cases hpwse : pile.get_side_effects (rest.get ⟨i, hi2⟩) with
              | none => rw [hpwse] at hpw; exact hpw
              | some se2 =>
                rw [hpwse] at hpw
                cases se2 with
                | Pure b2 => rw [hnth]; exact hpw
                | Out b2 => rw [hnth]; exact hpw
                | In alts2 =>
                  obtain ⟨b2, io3, hb2, hn⟩ := hpw
                  exact ⟨b2, io3, hb2, by rw [hnth]; exact hn⟩
      | In alts =>
        dsimp only at h
        rcases hget0 : ioGet io with ⟨gres, ioG⟩
        rw [hget0] at h
        cases gres with
        | error e => simp at h
        | ok b =>
          dsimp only at h
          rcases hrec : perform_io pile rest ioG with ⟨res, ioR⟩
          rw [hrec] at h
          dsimp only at h
          cases res with
          | error e => simp [Except.map] at h
          | ok next1 =>
            simp only [Except.map, Prod.mk.injEq, Except.ok.injEq] at h
            obtain ⟨rfl, rfl⟩ := h
            obtain ⟨ihlen, ihpw⟩ := ih ioG next1 ioR hrec
            refine ⟨by simp [ihlen], ?_⟩
            intro i hi
            cases i with
            | zero =>
              refine ⟨[], io, rfl, ?_⟩
              have hg0 : (r :: rest).get ⟨0, hi⟩ = r := rfl
              rw [hg0, hse]
              exact ⟨b, ioG, hget0, by simp⟩
            | succ i =>
              have hi2 : i < rest.length := by simpa using hi
              obtain ⟨pre, ioMid, hpre, hpw⟩ := ihpw i hi2
              refine ⟨(if b then alts.2 else alts.1) :: pre, ioMid, ?_, ?_⟩
              · show perform_io pile (r :: rest.take i) io = _
                rw [perform_io, hse]
                dsimp only
                rw [hget0]
                dsimp only
                rw [hpre]
                simp [Except.map]
              · have hg2 : (r :: rest).get ⟨i + 1, hi⟩ = rest.get ⟨i, hi2⟩ := rfl
                rw [hg2]
                have hnth : ((if b then alts.2 else alts.1) :: next1)[i + 1]?
                    = next1[i]? := by simp
                cases hpwse : pile.get_side_effects (rest.get ⟨i, hi2⟩) with
                | none => rw [hpwse] at hpw; exact hpw
                | some se2 =>
                  rw [hpwse] at hpw
                  cases se2 with
                  | Pure b2 => rw [hnth]; exact hpw
                  | Out b2 => rw [hnth]; exact hpw
                  | In alts2 =>
                    obtain ⟨b2, io3, hb2, hn⟩ := hpw
                    exact ⟨b2, io3, hb2, by rw [hnth]; exact hn⟩

/-- C7: a successful `perform_io` preserves the row's length and maps it
pointwise: `Pure` and `Out` refs pass through unchanged (`Out` after
putting its bit), and an `In` ref is replaced by `alts.1`/`alts.2`
according to the bit read from the buffer state reached after the cells
to its west. -/
theorem perform_io_pointwise (pile : DominoPile) (st : List TileRef)
    (io : IoState) (next : List TileRef) (io2 : IoState)
    (h : perform_io pile st io = (Except.ok next, io2)) :
    next.length = st.length
    ∧ ∀ i (hi : i < st.length), ∃ pre ioMid,
        perform_io pile (st.take i) io = (Except.ok pre, ioMid)
        ∧ (match pile.get_side_effects (st.get ⟨i, hi⟩) with
            | some (.Pure b) => next[i]? = some (st.get ⟨i, hi⟩)
            | some (.Out bit) => next[i]? = some (st.get ⟨i, hi⟩)
            | some (.In alts) => ∃ b io3, ioGet ioMid = (Except.ok b, io3)
                ∧ next[i]? = some (if b then alts.2 else alts.1)
            | none => False) :=
  perform_io_spec pile st io next io2 h

/-- C7 witness. -/
theorem perform_io_pointwise_witness :
    perform_io (DominoPile.new shiftDominoes) [0] (IoState.new [])
        = (Except.ok [0], IoState.new [])
    ∧ ([0] : List TileRef).length = ([0] : List TileRef).length := by
  refine ⟨by rfl, ?_⟩
  exact (perform_io_pointwise (DominoPile.new shiftDominoes) [0] (IoState.new [])
    [0] (IoState.new []) (by rfl)).1

/-! ## Infrastructure lemmas: clouds, selection, and the sweep -/

theorem hiddenFilter_mem (pile : DominoPile) (l : List TileRef) :
    ∀ l2, hiddenFilter pile l = Except.ok l2 →
      ∀ r, r ∈ l2 ↔ (r ∈ l ∧ pile.get_side_effects r ≠ some (.Pure .Hidden)) := by
  induction l with
  | nil =>
    intro l2 h r
    rw [hiddenFilter] at h
    obtain rfl := Option.some_inj.mp (congrArg Except.toOption h).symm
    simp
  | cons x rest ih =>
    intro l2 h r
    rw [hiddenFilter] at h
    cases hse : pile.get_side_effects x with
    | none => rw [hse] at h; cases h
    | some se =>
      rw [hse] at h
      have hkeep : ∀ l3, hiddenFilter pile rest = Except.ok l3 →
          se ≠ SideEffects.Pure PurityBias.Hidden → l2 = x :: l3 →
          (r ∈ l2 ↔ (r ∈ x :: rest
            ∧ pile.get_side_effects r ≠ some (.Pure .Hidden))) := by
        intro l3 hrec hne hl2
        subst hl2
        rw [List.mem_cons, ih l3 hrec r]
        constructor
        · rintro (rfl | ⟨hm, hne2⟩)
          · refine ⟨List.mem_cons_self _ _, ?_⟩
            rw [hse]
            intro hc
            exact hne (Option.some_inj.mp hc)
          · exact ⟨List.mem_cons_of_mem _ hm, hne2⟩
        · rintro ⟨hm, hne2⟩
          rcases List.mem_cons.mp hm with rfl | hm2
          · exact Or.inl rfl
          · exact Or.inr ⟨hm2, hne2⟩
      cases se with
      | Pure bias =>
        cases bias with
        | Hidden =>
          rw [ih l2 h r]
          constructor
          · rintro ⟨hm, hne⟩
            exact ⟨List.mem_cons_of_mem _ hm, hne⟩
          · rintro ⟨hm, hne⟩
            rcases List.mem_cons.mp hm with rfl | hm2
            · exact absurd hse hne
            · exact ⟨hm2, hne⟩
        | Nothing =>
          cases hrec : hiddenFilter pile rest with
          | error e => rw [hrec] at h; cases h
          | ok l3 =>
            rw [hrec] at h
            obtain rfl := Option.some_inj.mp (congrArg Except.toOption h).symm
            exact hkeep l3 hrec (by intro hc; cases hc) rfl
      | In alts =>
        cases hrec : hiddenFilter pile rest with
        | error e => rw [hrec] at h; cases h
        | ok l3 =>
          rw [hrec] at h
          obtain rfl := Option.some_inj.mp (congrArg Except.toOption h).symm
          exact hkeep l3 hrec (by intro hc; cases hc) rfl
      | Out bit =>
        cases hrec : hiddenFilter pile rest with
        | error e => rw [hrec] at h; cases h
        | ok l3 =>
          rw [hrec] at h
          obtain rfl := Option.some_inj.mp (congrArg Except.toOption h).symm
          exact hkeep l3 hrec (by intro hc; cases hc) rfl

theorem select_mem (c : TileCloud) (r : TileRef) (h : c.select = Except.ok r) :
    r ∈ c.cloud := by
  unfold TileCloud.select at h
  have hfb : ∀ q : TileRef,
      (match c.cloud.head? with
        | some r2 => Except.ok r2
        | none => Except.error RowErr.Cloud) = Except.ok q → q ∈ c.cloud := by
    intro q hq
    cases hh : c.cloud.head? with
    | none => rw [hh] at hq; cases hq
    | some r2 =>
      rw [hh] at hq
      obtain rfl := Option.some_inj.mp (congrArg Except.toOption hq).symm
      exact List.mem_of_mem_head? hh
  cases hc : c.conf with
  | Prefer prf =>
    rw [hc] at h
    dsimp only at h
    by_cases hp : c.cloud.contains prf
    · rw [if_pos hp] at h
      obtain rfl := Option.some_inj.mp (congrArg Except.toOption h).symm
      simpa using hp
    · rw [if_neg hp] at h
      exact hfb r h
  | Avoid av =>
    rw [hc] at h
    dsimp only at h
    cases hf : c.cloud.find? (fun r2 => r2 != av) with
    | some r2 =>
      rw [hf] at h
      obtain rfl := Option.some_inj.mp (congrArg Except.toOption h).symm
      exact List.mem_of_find?_eq_some hf
    | none =>
      rw [hf] at h
      exact hfb r h
  | Whatever =>
    rw [hc] at h
    dsimp only at h
    exact hfb r h

theorem select_singleton (c : TileCloud) (x : TileRef) (h : c.cloud = [x]) :
    c.select = Except.ok x := by
  unfold TileCloud.select
  rw [h]
  cases hc : c.conf with
  | Prefer prf =>
    by_cases hp : prf = x
    · subst hp
      simp
    · have hcon : ([x] : List TileRef).contains prf = false := by
        simp [hp]
      simp [hcon]
  | Avoid av =>
    by_cases hp : x = av
    · subst hp
      simp
    · simp [hp]
  | Whatever => simp

theorem select_prefer (c : TileCloud) (prf : TileRef)
    (hc : c.conf = .Prefer prf) (hm : prf ∈ c.cloud) :
    c.select = Except.ok prf := by
  unfold TileCloud.select
  rw [hc]
  dsimp only
  rw [if_pos (by simpa using hm)]

theorem constrain_mem (c : TileCloud) (pile : DominoPile) (other : TileCloud)
    (o : Orientation) (c2 : TileCloud)
    (h : c.constrain pile other o = Except.ok c2) :
    c2.conf = c.conf ∧ ∀ r ∈ c2.cloud, r ∈ c.cloud ∧
      ((pile.tile r).cardinal o) ∈ other.positional_pips pile (-o) := by
  unfold TileCloud.constrain at h
  by_cases he : (c.cloud.filter
      (fun r => (other.positional_pips pile (-o)).contains
        ((pile.tile r).cardinal o))).isEmpty
  · rw [if_pos he] at h
    cases h
  · rw [if_neg he] at h
    obtain rfl := Option.some_inj.mp (congrArg Except.toOption h).symm
    refine ⟨rfl, ?_⟩
    intro r hr
    have hm := List.mem_filter.mp hr
    exact ⟨hm.1, by simpa using hm.2⟩

theorem selectAll_get (clouds : List TileCloud) :
    ∀ sel, selectAll clouds = Except.ok sel →
      sel.length = clouds.length
      ∧ ∀ (i : Nat) (c : TileCloud) (s : TileRef),
          clouds[i]? = some c → sel[i]? = some s →
          c.select = Except.ok s := by
  induction clouds with
  | nil =>
    intro sel h
    rw [selectAll] at h
    obtain rfl := Option.some_inj.mp (congrArg Except.toOption h).symm
    exact ⟨rfl, fun i c s hc => absurd hc (by simp)⟩
  | cons c0 rest ih =>
    intro sel h
    rw [selectAll] at h
    cases hs0 : c0.select with
    | error e => rw [hs0] at h; cases h
    | ok s0 =>
      rw [hs0] at h
      cases hrec : selectAll rest with
      | error e => rw [hrec] at h; cases h
      | ok sel1 =>
        rw [hrec] at h
        obtain rfl := Option.some_inj.mp (congrArg Except.toOption h).symm
        obtain ⟨ihlen, ihget⟩ := ih sel1 hrec
        refine ⟨by simp [ihlen], ?_⟩
        intro i c s hc hsx
        cases i with
        | zero =>
          rw [List.getElem?_cons_zero] at hc hsx
          obtain rfl := Option.some_inj.mp hc
          obtain rfl := Option.some_inj.mp hsx
          exact hs0
        | succ i =>
          rw [List.getElem?_cons_succ] at hc hsx
          exact ihget i c s hc hsx

/-- The sweep preserves each cloud's preference, in order, and
establishes `cloudRel` between every adjacent pair of swept clouds. -/
theorem sweepAux_chain (pile : DominoPile) :
    ∀ (todo done res : List TileCloud),
      sweepAux pile done todo = Except.ok res →
      List.Chain' (cloudRel pile) done.reverse →
      List.Chain' (cloudRel pile) res
      ∧ res.map (fun c => c.conf)
          = done.reverse.map (fun c => c.conf) ++ todo.map (fun c => c.conf) := by
  intro todo
  induction todo with
  | nil =>
    intro done res h hch
    rw [sweepAux] at h
    obtain rfl := Option.some_inj.mp (congrArg Except.toOption h).symm
    exact ⟨hch, by simp⟩
  | cons c rest ih =>
    intro done res h hch
    rw [sweepAux] at h
    cases hcw : constrainPred pile done c with
    | error e => rw [hcw] at h; cases h
    | ok cw =>
      have hwest : cw.conf = c.conf
          ∧ ∀ pred, done.head? = some pred → cloudRel pile pred cw := by
        unfold constrainPred at hcw
        cases done with
        | nil =>
          obtain rfl := Option.some_inj.mp (congrArg Except.toOption hcw).symm
          exact ⟨rfl, fun pred hp => by cases hp⟩
        | cons pred drest =>
          dsimp only at hcw
          cases hcon : c.constrain pile pred .West with
          | error e => rw [hcon] at hcw; cases hcw
          | ok c2 =>
            rw [hcon] at hcw
            obtain rfl := Option.some_inj.mp (congrArg Except.toOption hcw).symm
            obtain ⟨hconf, hmem⟩ := constrain_mem c pile pred .West cw hcon
            refine ⟨hconf, ?_⟩
            intro pred2 hp
            obtain rfl := Option.some_inj.mp hp
            intro r hr
            exact (hmem r hr).2
      rw [hcw] at h
      dsimp only at h
      obtain ⟨hcwconf, hcwrel⟩ := hwest
      cases hce : constrainSucc pile rest cw with
      | error e => rw [hce] at h; cases h
      | ok ce =>
        have heast : ce.conf = cw.conf ∧ ∀ r ∈ ce.cloud, r ∈ cw.cloud := by
          unfold constrainSucc at hce
          cases rest with
          | nil =>
            obtain rfl := Option.some_inj.mp (congrArg Except.toOption hce).symm
            exact ⟨rfl, fun r hr => hr⟩
          | cons succ rrest =>
            dsimp only at hce
            cases hcon : cw.constrain pile succ .East with
            | error e => rw [hcon] at hce; cases hce
            | ok c2 =>
              rw [hcon] at hce
              obtain rfl := Option.some_inj.mp (congrArg Except.toOption hce).symm
              obtain ⟨hconf, hmem⟩ := constrain_mem cw pile succ .East ce hcon
              exact ⟨hconf, fun r hr => (hmem r hr).1⟩
        rw [hce] at h
        dsimp only at h
        obtain ⟨hceconf, hcemem⟩ := heast
        have hch2 : List.Chain' (cloudRel pile) ((ce :: done).reverse) := by
          rw [List.reverse_cons, List.chain'_append]
          refine ⟨hch, List.chain'_singleton _, ?_⟩
          intro x hx y hy
          rw [List.getLast?_reverse] at hx
          have hy2 : ce = y := by simpa using hy
          subst hy2
          intro r hr
          exact hcwrel x (Option.mem_def.mp hx) r (hcemem r hr)
        obtain ⟨ihc, ihm⟩ := ih (ce :: done) res h hch2
        refine ⟨ihc, ?_⟩
        rw [ihm, List.reverse_cons, List.map_append]
        simp [hceconf, hcwconf]

/-- Selected refs from `cloudRel`-chained clouds form a consistent row
as soon as, in each adjacent pair, all members of the left cloud agree on
their east pip. -/
theorem chain'_of_selected (pile : DominoPile) (clouds : List TileCloud)
    (sel : List TileRef)
    (hlen : sel.length = clouds.length)
    (hsel : ∀ (i : Nat) (c : TileCloud) (s : TileRef),
      clouds[i]? = some c → sel[i]? = some s →
      c.select = Except.ok s)
    (hunif : ∀ i : Fin clouds.length, i.1 + 1 < clouds.length →
      ∀ r1 ∈ (clouds.get i).cloud, ∀ r2 ∈ (clouds.get i).cloud,
        (pile.tile r1).east = (pile.tile r2).east)
    (hchain : clouds.Chain' (cloudRel pile)) :
    sel.Chain' (fun a b => (pile.tile a).east = (pile.tile b).west) := by
  rw [List.chain'_iff_get] at hchain ⊢
  intro i hi
  have hi1 : i + 1 < sel.length := by omega
  have hi0 : i < sel.length := by omega
  have hci1 : i + 1 < clouds.length := by omega
  have hci0 : i < clouds.length := by omega
  have hc0 : clouds[i]? = some (clouds.get ⟨i, hci0⟩) := by
    rw [List.getElem?_eq_getElem hci0]
    rfl
  have hc1 : clouds[i + 1]? = some (clouds.get ⟨i + 1, hci1⟩) := by
    rw [List.getElem?_eq_getElem hci1]
    rfl
  have hs0 : sel[i]? = some (sel.get ⟨i, hi0⟩) := by
    rw [List.getElem?_eq_getElem hi0]
    rfl
  have hs1 : sel[i + 1]? = some (sel.get ⟨i + 1, hi1⟩) := by
    rw [List.getElem?_eq_getElem hi1]
    rfl
  have hsel0 := hsel i _ _ hc0 hs0
  have hsel1 := hsel (i + 1) _ _ hc1 hs1
  have hmem0 : sel.get ⟨i, hi0⟩ ∈ (clouds.get ⟨i, hci0⟩).cloud :=
    select_mem _ _ hsel0
  have hmem1 : sel.get ⟨i + 1, hi1⟩ ∈ (clouds.get ⟨i + 1, hci1⟩).cloud :=
    select_mem _ _ hsel1
  have hrel := hchain i (by omega)
  have hpip := hrel _ hmem1
  unfold TileCloud.positional_pips at hpip
  obtain ⟨r, hrmem, hreq⟩ := List.mem_map.mp hpip
  have hu := hunif ⟨i, hci0⟩ hci1 (sel.get ⟨i, hi0⟩) hmem0 r hrmem
  exact hu.trans hreq

/-- Pointwise east/west pip preservation transfers row consistency. -/
theorem chain'_ew_transfer (pile : DominoPile) (l1 l2 : List TileRef)
    (hlen : l2.length = l1.length)
    (hew : ∀ (i : Nat) (s n : TileRef),
      l1[i]? = some s → l2[i]? = some n →
      (pile.tile n).east = (pile.tile s).east
      ∧ (pile.tile n).west = (pile.tile s).west)
    (hch : List.Chain' (fun a b => (pile.tile a).east = (pile.tile b).west) l1) :
    List.Chain' (fun a b => (pile.tile a).east = (pile.tile b).west) l2 := by
  rw [List.chain'_iff_get] at hch ⊢
  intro i hi
  have hi0 : i < l2.length := by omega
  have hi1 : i + 1 < l2.length := by omega
  have hj0 : i < l1.length := by omega
  have hj1 : i + 1 < l1.length := by omega
  have h1 : l1[i]? = some (l1.get ⟨i, hj0⟩) := by
    rw [List.getElem?_eq_getElem hj0]
    rfl
  have h2 : l1[i + 1]? = some (l1.get ⟨i + 1, hj1⟩) := by
    rw [List.getElem?_eq_getElem hj1]
    rfl
  have h3 : l2[i]? = some (l2.get ⟨i, hi0⟩) := by
    rw [List.getElem?_eq_getElem hi0]
    rfl
  have h4 : l2[i + 1]? = some (l2.get ⟨i + 1, hi1⟩) := by
    rw [List.getElem?_eq_getElem hi1]
    rfl
  obtain ⟨he0, _⟩ := hew i _ _ h1 h3
  obtain ⟨_, hw1⟩ := hew (i + 1) _ _ h2 h4
  rw [he0, hw1]
  exact hch i (by omega)

/-! ## Infrastructure lemmas: the west frontier of a new row -/

theorem pile_hidden_le_length (ds : List Domino) :
    (DominoPile.new ds).hidden_watermark ≤ (DominoPile.new ds).buffer.length := by
  unfold DominoPile.new
  dsimp only
  rw [List.length_append]
  exact Nat.le_add_right _ _

/-- `get_side_effects` answers `Pure(Hidden)` exactly on the refs at or
beyond the hidden watermark. -/
theorem gse_hidden_iff (ds : List Domino) (r : TileRef) :
    (DominoPile.new ds).get_side_effects r
        = some (.Pure .Hidden) ↔ (DominoPile.new ds).hidden_watermark ≤ r := by
  by_cases hh : r ≥ (DominoPile.new ds).hidden_watermark
  · rw [DominoPile.get_side_effects, if_pos hh]
    simp [hh]
  · rw [DominoPile.get_side_effects, if_neg hh]
    by_cases hi : r ≥ (DominoPile.new ds).impure_watermark
    · rw [if_pos hi]
      simp [hh]
    · rw [if_neg hi]
      constructor
      · intro hc
        cases hin : assocGet (DominoPile.new ds).inputTbl r with
        | some alts => rw [hin] at hc; simp at hc
        | none =>
          rw [hin] at hc
          cases hout : assocGet (DominoPile.new ds).outputTbl r with
          | some v => rw [hout] at hc; simp at hc
          | none => rw [hout] at hc; simp at hc
      · intro hc
        exact absurd hc hh

/-- Unpack the west frontier cloud of a successful `Row::new`. -/
theorem row_new_head (pile : DominoPile) (border : TileRef) (board : List TileRef)
    (row : Row) (h : Row.new pile border board = Except.ok row) :
    ∃ west : TileCloud, row.row.head? = some west
      ∧ west.conf = .Prefer border
      ∧ hiddenFilter pile ((pile.matchesRef border .East).filter
          (fun r => (pile.matchesRef border .South).contains r))
          = Except.ok west.cloud := by
  unfold Row.new at h
  dsimp only at h
  unfold TileCloud.new at h
  cases hf : hiddenFilter pile ((pile.matchesRef border .East).filter
      (fun r => (pile.matchesRef border .South).contains r)) with
  | error e =>
    rw [hf] at h
    simp [Except.map] at h
  | ok wc =>
    rw [hf] at h
    simp only [Except.map] at h
    cases hm : boardClouds pile border board with
    | error e => rw [hm] at h; cases h
    | ok mids =>
      rw [hm] at h
      cases he : hiddenFilter pile ((pile.matchesRef border .West).filter
          (fun r => (pile.matchesRef border .South).contains r)) with
      | error e =>
        rw [he] at h
        simp [Except.map] at h
      | ok ec =>
        rw [he] at h
        simp only [Except.map] at h
        obtain rfl := Option.some_inj.mp (congrArg Except.toOption h).symm
        exact ⟨⟨wc, .Prefer border⟩, by simp, rfl, rfl⟩

/-! ## C3: the west frontier cloud of `Row::new` -/

/-- C3 (amended): on a duplicate-free pile, the west frontier cloud of a
successful `Row::new` has preference `Prefer(border)` and holds exactly
the non-hidden refs whose north pip equals the border tile's south pip
and whose WEST pip equals the border tile's EAST pip (the spec stated the
east/west roles the other way around). -/
theorem west_frontier_characterization (ds : List Domino) (border : TileRef)
    (board : List TileRef) (row : Row)
    (hnd : (DominoPile.new ds).buffer.Nodup)
    (hb : border < (DominoPile.new ds).buffer.length)
    (h : Row.new (DominoPile.new ds) border board = Except.ok row) :
    ∃ west : TileCloud, row.row.head? = some west
      ∧ west.conf = .Prefer border
      ∧ ∀ r : TileRef, r ∈ west.cloud ↔
          (r < (DominoPile.new ds).hidden_watermark
            ∧ ((DominoPile.new ds).tile r).west
                = ((DominoPile.new ds).tile border).east
            ∧ ((DominoPile.new ds).tile r).north
                = ((DominoPile.new ds).tile border).south) := by
  obtain ⟨west, hhead, hconf, hf⟩ := row_new_head (DominoPile.new ds) border board row h
  refine ⟨west, hhead, hconf, ?_⟩
  intro r
  rw [hiddenFilter_mem (DominoPile.new ds) _ west.cloud hf r]
  constructor
  · rintro ⟨hmf, hne⟩
    obtain ⟨hE, hlat⟩ := List.mem_filter.mp hmf
    obtain ⟨hrlen, hEpip⟩ := (matchesRef_mem_nodup ds hnd border .East r).mp hE
    have hlat2 : r ∈ (DominoPile.new ds).matchesRef border .South := by
      simpa using hlat
    obtain ⟨_, hSpip⟩ := (matchesRef_mem_nodup ds hnd border .South r).mp hlat2
    refine ⟨?_, hEpip, hSpip⟩
    by_contra hge
    exact hne ((gse_hidden_iff ds r).mpr (Nat.le_of_not_lt hge))
  · rintro ⟨hrh, hw, hn⟩
    have hrlen : r < (DominoPile.new ds).buffer.length :=
      Nat.lt_of_lt_of_le hrh (pile_hidden_le_length ds)
    refine ⟨List.mem_filter.mpr ⟨?_, ?_⟩, ?_⟩
    · exact (matchesRef_mem_nodup ds hnd border .East r).mpr ⟨hrlen, hw⟩
    · simpa using (matchesRef_mem_nodup ds hnd border .South r).mpr ⟨hrlen, hn⟩
    · intro hc
      exact absurd ((gse_hidden_iff ds r).mp hc) (Nat.not_le.mpr hrh)

/-- C3 counterexample: on the asymmetric-border pile the west frontier
cloud contains ref 1, whose east pip (5) differs from the border tile's
west pip (9) — the membership rule the spec states (east of member =
west of border) does not describe the code. -/
theorem west_frontier_flipped_cex :
    Row.new (DominoPile.new asymDominoes) 0 []
        = Except.ok ⟨[⟨[1], .Prefer 0⟩, ⟨[], .Prefer 0⟩], 0⟩
      ∧ (1 : TileRef) ∈ (⟨[1], .Prefer 0⟩ : TileCloud).cloud
      ∧ ((DominoPile.new asymDominoes).tile 1).east
          ≠ ((DominoPile.new asymDominoes).tile 0).west := by
  exact ⟨by rfl, by decide, by decide⟩

/-- C3 witness. -/
theorem west_frontier_characterization_witness :
    ((DominoPile.new asymDominoes).buffer.Nodup
      ∧ 0 < (DominoPile.new asymDominoes).buffer.length
      ∧ Row.new (DominoPile.new asymDominoes) 0 []
          = Except.ok ⟨[⟨[1], .Prefer 0⟩, ⟨[], .Prefer 0⟩], 0⟩)
    ∧ (∃ west : TileCloud,
        (⟨[⟨[1], .Prefer 0⟩, ⟨[], .Prefer 0⟩], 0⟩ : Row).row.head? = some west
        ∧ west.conf = .Prefer 0
        ∧ ∀ r : TileRef, r ∈ west.cloud ↔
            (r < (DominoPile.new asymDominoes).hidden_watermark
              ∧ ((DominoPile.new asymDominoes).tile r).west
                  = ((DominoPile.new asymDominoes).tile 0).east
              ∧ ((DominoPile.new asymDominoes).tile r).north
                  = ((DominoPile.new asymDominoes).tile 0).south)) :=
  ⟨⟨by decide, by decide, by rfl⟩,
    west_frontier_characterization asymDominoes 0 [] _ (by decide) (by decide) (by rfl)⟩

/-! ## Infrastructure lemmas: I/O resolution preserves east/west pips -/

theorem checkAlts_all (l : List Domino) (h : checkAlts l = Except.ok ()) :
    ∀ d ∈ l, altsConsistent d = true := by
  induction l with
  | nil => intro d hd; cases hd
  | cons d0 rest ih =>
    intro d hd
    by_cases hc : altsConsistent d0
    · rw [checkAlts, if_pos hc] at h
      rcases List.mem_cons.mp hd with rfl | hm
      · exact hc
      · exact ih h d hm
    · rw [checkAlts, if_neg hc] at h
      cases h

/-- A successfully constructed program carries the pile of its domino set,
and that set passed the input-alternates validation. -/
theorem program_new_ok_inv (set : List Domino) (bt : Tile) (initial : List Tile)
    (stdin : List Nat) (p : Program)
    (h : Program.new set bt initial stdin = Except.ok p) :
    p.pile = DominoPile.new set ∧ checkAlts set = Except.ok () := by
  by_cases hlen : set.length ≥ UNALLOCATED_PIP
  · rw [Program.new, if_pos hlen] at h
    cases h
  · rw [Program.new, if_neg hlen] at h
    by_cases h0 : initial.length = 0
    · rw [if_pos h0] at h
      cases h
    · rw [if_neg h0] at h
      cases hca : checkAlts set with
      | error e => rw [hca] at h; injection h
      | ok u =>
        cases u
        rw [hca] at h
        dsimp only [] at h
        cases hb : (DominoPile.new set).get bt with
        | none => rw [hb] at h; injection h
        | some border =>
          rw [hb] at h
          cases hrefs : refsOf (DominoPile.new set) initial with
          | error e => rw [hrefs] at h; injection h
          | ok state =>
            rw [hrefs] at h
            cases hci : checkInitialFrom bt bt initial with
            | error e => rw [hci] at h; injection h
            | ok u2 =>
              cases u2
              rw [hci] at h
              injection h with h2
              subst h2
              exact ⟨rfl, rfl⟩

/-- An `In` answer from `get_side_effects` is an input-table hit. -/
theorem gse_in_inputTbl (pile : DominoPile) (r : TileRef) (alts : TileRef × TileRef)
    (h : pile.get_side_effects r = some (.In alts)) :
    assocGet pile.inputTbl r = some alts := by
  rw [DominoPile.get_side_effects] at h
  by_cases hh : r ≥ pile.hidden_watermark
  · rw [if_pos hh] at h
    simp at h
  · rw [if_neg hh] at h
    by_cases hi : r ≥ pile.impure_watermark
    · rw [if_pos hi] at h
      simp at h
    · rw [if_neg hi] at h
      cases hin : assocGet pile.inputTbl r with
      | some a =>
        rw [hin] at h
        simp at h
        rw [h]
      | none =>
        rw [hin] at h
        cases hout : assocGet pile.outputTbl r with
        | some v => rw [hout] at h; simp at h
        | none => rw [hout] at h; simp at h

/-- On a validated domino set, both alternates of an input-table entry
agree with the entry's own tile on the east and west pips. -/
theorem inputTbl_alts_ew (ds : List Domino) (hca : checkAlts ds = Except.ok ())
    (r : TileRef) (alts : TileRef × TileRef)
    (hin : assocGet (DominoPile.new ds).inputTbl r = some alts) :
    (((DominoPile.new ds).tile alts.1).east = ((DominoPile.new ds).tile r).east
      ∧ ((DominoPile.new ds).tile alts.1).west = ((DominoPile.new ds).tile r).west)
    ∧ (((DominoPile.new ds).tile alts.2).east = ((DominoPile.new ds).tile r).east
      ∧ ((DominoPile.new ds).tile alts.2).west = ((DominoPile.new ds).tile r).west) := by
  obtain ⟨d, a, hd, hse, hkey, halts⟩ := inputTbl_some_src ds r alts hin
  have htr : (DominoPile.new ds).tile r = d.tile :=
    tile_of_getElem? ds r d.tile (as_ref_some_getElem ds d.tile r hkey)
  obtain ⟨h1mem, h2mem⟩ := alts_mem_buffer ds d a hd hse
  obtain ⟨j1, hj1⟩ := mem_exists_buildIndex _ a.1 h1mem
  obtain ⟨j2, hj2⟩ := mem_exists_buildIndex _ a.2 h2mem
  rw [← pile_as_ref_eq] at hj1 hj2
  have ht1 : (DominoPile.new ds).tile alts.1 = a.1 := by
    have : alts.1 = j1 := by
      rw [congrArg Prod.fst halts]
      rw [hj1]
      rfl
    rw [this]
    exact tile_of_getElem? ds j1 a.1 (as_ref_some_getElem ds a.1 j1 hj1)
  have ht2 : (DominoPile.new ds).tile alts.2 = a.2 := by
    have : alts.2 = j2 := by
      rw [congrArg Prod.snd halts]
      rw [hj2]
      rfl
    rw [this]
    exact tile_of_getElem? ds j2 a.2 (as_ref_some_getElem ds a.2 j2 hj2)
  have hdin : d ∈ ds := (List.perm_insertionSort seLe ds).mem_iff.mp hd
  have hcons := checkAlts_all ds hca d hdin
  unfold altsConsistent at hcons
  rw [hse] at hcons
  simp only [List.all_cons, List.all_nil, Bool.and_eq_true, decide_eq_true_eq,
    Bool.and_true] at hcons
  obtain ⟨⟨_, h1E, h1W⟩, _, h2E, h2W⟩ := hcons
  rw [htr, ht1, ht2]
  exact ⟨⟨h1E, h1W⟩, h2E, h2W⟩

/-- A successful `perform_io` on a validated pile preserves every cell's
east and west pips (`Pure`/`Out` cells are unchanged; an `In` cell is
replaced by an alternate that agrees on east and west). -/
theorem perform_io_ew (ds : List Domino) (hca : checkAlts ds = Except.ok ())
    (st : List TileRef) (io : IoState) (next : List TileRef) (io2 : IoState)
    (h : perform_io (DominoPile.new ds) st io = (Except.ok next, io2)) :
    next.length = st.length
    ∧ ∀ (i : Nat) (s n : TileRef), st[i]? = some s → next[i]? = some n →
        ((DominoPile.new ds).tile n).east = ((DominoPile.new ds).tile s).east
        ∧ ((DominoPile.new ds).tile n).west = ((DominoPile.new ds).tile s).west := by
  obtain ⟨hlen, hpw⟩ := perform_io_spec (DominoPile.new ds) st io next io2 h
  refine ⟨hlen, ?_⟩
  intro i s n hs hn
  have hi : i < st.length := (List.getElem?_eq_some_iff.mp hs).1
  obtain ⟨pre, ioMid, hpre, hmatch⟩ := hpw i hi
  have hsget : st.get ⟨i, hi⟩ = s := by
    have hg : st[i]? = some (st.get ⟨i, hi⟩) := by
      rw [List.getElem?_eq_getElem hi]
      rfl
    exact Option.some_inj.mp (hg.symm.trans hs)
  cases hse : (DominoPile.new ds).get_side_effects (st.get ⟨i, hi⟩) with
  | none =>
    rw [hse] at hmatch
    exact hmatch.elim
  | some se =>
    rw [hse] at hmatch
    cases se with
    | Pure b =>
      have hns : n = st.get ⟨i, hi⟩ := Option.some_inj.mp (hn.symm.trans hmatch)
      rw [hns, hsget]
      exact ⟨rfl, rfl⟩
    | Out bit =>
      have hns : n = st.get ⟨i, hi⟩ := Option.some_inj.mp (hn.symm.trans hmatch)
      rw [hns, hsget]
      exact ⟨rfl, rfl⟩
    | In alts =>
      obtain ⟨b, io3, hb, hnext⟩ := hmatch
      have hn2 : n = if b then alts.2 else alts.1 :=
        Option.some_inj.mp (hn.symm.trans hnext)
      have hintbl : assocGet (DominoPile.new ds).inputTbl (st.get ⟨i, hi⟩)
          = some alts := gse_in_inputTbl _ _ _ hse
      obtain ⟨h1, h2⟩ := inputTbl_alts_ew ds hca (st.get ⟨i, hi⟩) alts hintbl
      rw [hsget] at h1 h2
      cases b with
      | false => rw [hn2]; exact h1
      | true => rw [hn2]; exact h2

/-- Trimming the frontier border tiles preserves row consistency. -/
theorem chain'_trimBorder (R : TileRef → TileRef → Prop) (b : TileRef) :
    ∀ sel : List TileRef, List.Chain' R sel → List.Chain' R (trimBorder b sel) := by
  have hstep2 : ∀ l : List TileRef, List.Chain' R l →
      List.Chain' R (match l.getLast? with
        | some r => if r = b then l.dropLast else l
        | none => l) := by
    intro l hl
    cases hlast : l.getLast? with
    | none => exact hl
    | some r =>
      dsimp only
      by_cases hr : r = b
      · rw [if_pos hr]
        exact hl.prefix (List.dropLast_prefix l)
      · rw [if_neg hr]
        exact hl
  intro sel hsel
  unfold trimBorder
  cases sel with
  | nil => exact hstep2 [] hsel
  | cons r rest =>
    dsimp only
    by_cases hr : r = b
    · rw [if_pos hr]
      exact hstep2 rest hsel.tail
    · rw [if_neg hr]
      exact hstep2 (r :: rest) hsel

/-! ## C1: row self-consistency after a successful step -/

/-- C1 (amended): a successful `step` of a validated program yields a
self-consistent row, provided the constraint sweep left no east-pip
ambiguity: in every adjacent pair of swept clouds, all members of the
left cloud agree on their east pip.  (Unconditionally the claim fails:
see the counterexample below.) -/
theorem step_row_consistent_of_uniform (ds : List Domino) (bt : Tile)
    (init : List Tile) (stdin : List Nat) (p p2 : Program) (row : Row)
    (clouds : List TileCloud)
    (hp : Program.new ds bt init stdin = Except.ok p)
    (hrow : Row.new p.pile p.border p.state = Except.ok row)
    (hsw : sweepAux p.pile [] row.row = Except.ok clouds)
    (hunif : ∀ i : Fin clouds.length, i.1 + 1 < clouds.length →
      ∀ r1 ∈ (clouds.get i).cloud, ∀ r2 ∈ (clouds.get i).cloud,
        (p.pile.tile r1).east = (p.pile.tile r2).east)
    (hstep : p.step = (Except.ok (), p2)) :
    rowConsistent p.pile p2.state := by
  obtain ⟨hpile, hca⟩ := program_new_ok_inv ds bt init stdin p hp
  rw [Program.step] at hstep
  rw [hrow] at hstep
  have hbind : (Except.ok row).bind (fun row => Row.to_vec row p.pile)
      = Row.to_vec row p.pile := rfl
  rw [hbind, Row.to_vec, hsw] at hstep
  dsimp only at hstep
  cases hsel : selectAll clouds with
  | error e =>
    rw [hsel] at hstep
    simp at hstep
  | ok sel =>
    rw [hsel] at hstep
    dsimp only at hstep
    rcases hio : perform_io p.pile (trimBorder row.border sel) p.io with ⟨res, io2⟩
    rw [hio] at hstep
    cases res with
    | error e => simp at hstep
    | ok next2 =>
      dsimp only at hstep
      have hst : p2.state = next2 :=
        (congrArg (fun q => q.2.state) hstep).symm
      obtain ⟨hch, _⟩ := sweepAux_chain p.pile row.row [] clouds hsw (by simp)
      obtain ⟨hlen, hgets⟩ := selectAll_get clouds sel hsel
      have hselch := chain'_of_selected p.pile clouds sel hlen hgets hunif hch
      have htrim := chain'_trimBorder _ row.border sel hselch
      rw [hpile] at hio
      rw [hpile] at htrim
      obtain ⟨hlen2, hew⟩ :=
        perform_io_ew ds hca (trimBorder row.border sel) p.io next2 io2 hio
      have hfinal := chain'_ew_transfer (DominoPile.new ds)
        (trimBorder row.border sel) next2 hlen2 hew htrim
      rw [rowConsistent, hst, hpile]
      exact hfinal

/-- C1 counterexample: the ambiguous-pile program constructs, steps `Ok`,
and leaves the inconsistent row `[3, 5]` (east pip 1 against west
pip 2) — nothing ties the two independently selected cells together. -/
theorem step_inconsistent_cex :
    Program.new ambDominoes ambBorder [Tile.new 0 0 5 0, Tile.new 0 0 6 0] []
        = Except.ok ambProgram
      ∧ (ambProgram.step).1 = Except.ok ()
      ∧ ¬ rowConsistent ambProgram.pile (ambProgram.step).2.state := by
  refine ⟨by rfl, by rfl, ?_⟩
  rw [rowConsistent]
  intro hc
  have h2 : (ambProgram.step).2.state = [3, 5] := by rfl
  rw [h2] at hc
  exact absurd (List.chain'_cons.mp hc).1 (by decide)

/-- C1 witness. -/
theorem step_row_consistent_of_uniform_witness :
    (Program.new shiftDominoes (Tile.new 0 0 0 0) [Tile.new 0 0 10 0] []
        = Except.ok shiftProgram
      ∧ Row.new shiftProgram.pile shiftProgram.border shiftProgram.state
          = Except.ok shiftRow
      ∧ sweepAux shiftProgram.pile [] shiftRow.row = Except.ok shiftClouds
      ∧ (∀ i : Fin shiftClouds.length, i.1 + 1 < shiftClouds.length →
          ∀ r1 ∈ (shiftClouds.get i).cloud, ∀ r2 ∈ (shiftClouds.get i).cloud,
            (shiftProgram.pile.tile r1).east = (shiftProgram.pile.tile r2).east)
      ∧ shiftProgram.step = (Except.ok (), shiftStepped))
    ∧ rowConsistent shiftProgram.pile shiftStepped.state :=
  ⟨⟨by rfl, by rfl, by rfl, by decide, by rfl⟩,
    step_row_consistent_of_uniform shiftDominoes (Tile.new 0 0 0 0)
      [Tile.new 0 0 10 0] [] shiftProgram shiftStepped shiftRow shiftClouds
      (by rfl) (by rfl) (by rfl) (by decide) (by rfl)⟩

end Bones
